import Mathlib

/-!
Verification of the CSS Shadow Parts scoping module
(`packages/shadycss/src/shadow-parts.js`).

The JavaScript source is shallowly embedded: every function of the module
that the properties below mention is translated into an executable Lean
definition operating on explicit data.  Strings are handled through
`String.toList`, and the JavaScript string/regex primitives that the module
uses (`trim`, `split(/\s+/)`, `split(/\s*,\s*/)`, `split(/\s*:\s*/)`, and
the `PART_REGEX` match) are implemented character by character with the
ECMAScript semantics (whitespace classes, lazy/greedy backtracking order).

Modelling conventions:
* JavaScript plain objects used as dictionaries (the export-parts map, the
  part-rule registry) are modelled as association lists of own properties;
  prototype-chain lookups are outside the model.
* DOM elements are records of a tag name and an attribute list;
  `getAttribute` / `setAttribute` / `removeAttribute` act on that list.
* The position of a node's root (`getRootNode`) is given explicitly as a
  `Context` value: the document, a detached root with no host, or the
  shadow root of a host whose own position is given recursively.
* A JavaScript `TypeError` (reading a property of `undefined`) is modelled
  by an `Option` result, `none` meaning the call throws.
-/

/-! ## ECMAScript character classes -/

/-- Characters matched by the ECMAScript regex class `\s` (also the set
removed by `String.prototype.trim`): tab, line feed, vertical tab, form
feed, carriage return, space, no-break space, Ogham space mark, the
en-quad..hair-space range, line separator, paragraph separator, narrow
no-break space, medium mathematical space, ideographic space and BOM. -/
def isJsWS (c : Char) : Bool :=
  let n := c.toNat
  n = 0x20 || n = 0x09 || n = 0x0a || n = 0x0b || n = 0x0c || n = 0x0d ||
  n = 0xa0 || n = 0x1680 || (0x2000 ≤ n && n ≤ 0x200a) ||
  n = 0x2028 || n = 0x2029 || n = 0x202f || n = 0x205f || n = 0x3000 ||
  n = 0xfeff

/-- Characters matched by the ECMAScript regex metacharacter `.`
(no `s` flag): everything except the four line terminators LF, CR,
line separator and paragraph separator. -/
def isJsDot (c : Char) : Bool :=
  let n := c.toNat
  !(n = 0x0a || n = 0x0d || n = 0x2028 || n = 0x2029)

/-- Characters matched by the ECMAScript regex class `[a-z]`. -/
def isAsciiLowerAlpha (c : Char) : Bool :=
  'a' ≤ c && c ≤ 'z'

/-- Characters matched by the ECMAScript regex class `\w`:
`[A-Za-z0-9_]`. -/
def isJsWordChar (c : Char) : Bool :=
  ('a' ≤ c && c ≤ 'z') || ('A' ≤ c && c ≤ 'Z') || ('0' ≤ c && c ≤ '9') ||
  c = '_'

/-! ## ECMAScript string primitives used by the module -/

/-- JavaScript `String.prototype.trim` on a character list: whitespace is
removed from both ends. -/
def jsTrim (l : List Char) : List Char :=
  ((l.dropWhile isJsWS).reverse.dropWhile isJsWS).reverse

/-- JavaScript `str.split(/\s+/)` on a character list, as a left-to-right
scan.  The flag records whether the scan stands inside a separator run
(a maximal whitespace run); `acc` holds the current field reversed.  Every
maximal whitespace run ends the current field, so a leading or trailing
whitespace run contributes an empty field, and the empty string yields the
single field `[]` (ECMAScript split of an empty string with a separator
that cannot match the empty string). -/
def jsSplitWsRuns : Bool → List Char → List Char → List (List Char)
  | _, acc, [] => [acc.reverse]
  | inSep, acc, c :: rest =>
    if isJsWS c then
      if inSep then jsSplitWsRuns true [] rest
      else acc.reverse :: jsSplitWsRuns true [] rest
    else jsSplitWsRuns false (c :: acc) rest

/-- JavaScript `str.split(re)` where `re` is `/\s*,\s*/` or `/\s*:\s*/`
(greedy whitespace around a fixed separator character), on a character
list, as a left-to-right scan.  The flag records whether the scan stands
right after a separator match (whose trailing `\s*` greedily consumes the
following whitespace run); `pending` holds, reversed, the whitespace run
read since the last field character, which becomes the leading `\s*` of
the next separator match if the separator follows it, and otherwise
belongs to the current field; `acc` holds the current field reversed. -/
def jsSplitAroundSep (sep : Char) :
    Bool → List Char → List Char → List Char → List (List Char)
  | afterSep, pending, acc, [] =>
    [if afterSep then [] else (pending ++ acc).reverse]
  | afterSep, pending, acc, c :: rest =>
    if c = sep then
      (if afterSep then [] else acc.reverse) ::
        jsSplitAroundSep sep true [] [] rest
    else if isJsWS c then
      if afterSep then jsSplitAroundSep sep true [] [] rest
      else jsSplitAroundSep sep false (c :: pending) acc rest
    else
      if afterSep then jsSplitAroundSep sep false [] [c] rest
      else jsSplitAroundSep sep false [] (c :: (pending ++ acc)) rest

/-! ## Attribute grammar parsers -/

/-- Source `parsePartAttribute`: `null` and the empty string (both falsy)
yield `[]`; any other string is trimmed and split on `/\s+/`. -/
def parsePartAttribute (attr : Option String) : List String :=
  match attr with
  | none => []
  | some a =>
    if a = "" then []
    else (jsSplitWsRuns false [] (jsTrim a.toList)).map (fun cs => String.mk cs)

/-- An `{inner, outer}` record produced by `parseExportPartsAttribute`. -/
structure ExportPair where
  inner : String
  outer : String
deriving DecidableEq, Repr

/-- Source `parseExportPartsAttribute`, per comma token: one colon field
maps a name to itself, two fields give `{inner, outer}`, more are skipped
(`continue`). -/
def parseExportPartsToken (tok : String) : Option ExportPair :=
  match jsSplitAroundSep ':' false [] [] tok.toList with
  | [x] => some { inner := String.mk x, outer := String.mk x }
  | [x, y] => some { inner := String.mk x, outer := String.mk y }
  | _ => none

/-- Source `parseExportPartsAttribute`: falsy input yields `[]`; otherwise
the attribute is split on `/\s*,\s*/` and each token is parsed, malformed
tokens being dropped. -/
def parseExportPartsAttribute (attr : Option String) : List ExportPair :=
  match attr with
  | none => []
  | some a =>
    if a = "" then []
    else
      (jsSplitAroundSep ',' false [] [] a.toList).filterMap
        (fun tok => parseExportPartsToken (String.mk tok))

example : parsePartAttribute (some "foo bar") = ["foo", "bar"] := by decide
example : parsePartAttribute (some " ") = [""] := by decide
example : parsePartAttribute (some "") = [] := by decide
example : parseExportPartsAttribute (some "a,b:c") =
    [⟨"a", "a"⟩, ⟨"b", "c"⟩] := by decide
example : parseExportPartsAttribute (some "a:b:c") = [] := by decide
example : parseExportPartsAttribute (some ",") = [⟨"", ""⟩, ⟨"", ""⟩] := by
  decide
example : parseExportPartsAttribute (some "foo, bar :baz") =
    [⟨"foo", "foo"⟩, ⟨"bar", "baz"⟩] := by decide

/-! ## The part-selector pattern matcher

Source constant:
`PART_REGEX = /(.*?)([a-z]+-\w+)([^\s]*?)::part\((.*)?\)/` and
`parsePartSelector(selector) = selector.match(PART_REGEX)` destructured
into `{pre, ce, post, partList}` (or `null` on no match).

The backtracking search of the ECMAScript engine is determinized as
follows, each step justified by the shape of the pattern:
* group 2 (`[a-z]+-\w+`, greedy): a shorter choice of `[a-z]+` than the
  maximal lowercase run would have to be followed by `-`, but is followed
  by a lowercase letter, so only the maximal run can match; a shorter
  choice of `\w+` only moves word characters into the lazy group 3, which
  cannot change whether `::part(` is reachable (word characters are not
  whitespace and `::part(` cannot start inside a word run since `:` is not
  a word character), and the greedy engine tries the maximal run first;
* group 3 (`[^\s]*?`, lazy): grows one non-whitespace character at a time
  until the literal `::part(` follows, also retrying when a candidate
  `::part(` is not followed by a well-formed tail;
* group 4 (`(.*)?`, greedy): `.*` matches the maximal line-terminator-free
  run and backtracks to the last `)` inside it, so the group always
  participates in a successful match (if no `)` is reachable the optional
  group's skip alternative fails identically);
* group 1 (`(.*?)`, lazy) together with the unanchored search: the first
  successful start position of group 2 is found scanning left to right,
  and group 1 holds the characters from the latest line terminator before
  that position (group 1 cannot match line terminators) to it.
-/

/-- Result of a successful `PART_REGEX` match. -/
structure PartSelectorResult where
  pre : String
  ce : String
  post : String
  partList : String
deriving DecidableEq, Repr

/-- Group 4 plus the closing literal, `(.*)?\)`: the maximal
line-terminator-free run is cut at its last `)`; no `)` there means no
match. -/
def matchPartList (l : List Char) : Option (List Char) :=
  match (l.takeWhile isJsDot).reverse.dropWhile (fun c => c ≠ ')') with
  | ')' :: before => some before.reverse
  | _ => none

/-- The literal `::part(` of the pattern. -/
def partOpenLit : List Char := [':', ':', 'p', 'a', 'r', 't', '(']

/-- Group 3 and everything after it, `([^\s]*?)::part\((.*)?\)` starting
at `l` with the (reversed) group 3 characters read so far in `acc`: lazy
growth, trying the literal `::part(` before consuming one more
non-whitespace character. -/
def matchPostAndList (l : List Char) (acc : List Char) :
    Option (List Char × List Char) :=
  match
    (if l.take 7 = partOpenLit then
      (matchPartList (l.drop 7)).map (fun pl => (acc.reverse, pl))
    else none)
  with
  | some r => some r
  | none =>
    match l with
    | [] => none
    | c :: rest =>
      if isJsWS c then none else matchPostAndList rest (c :: acc)

/-- Groups 2 to 4 of the pattern anchored at `l`: the maximal `[a-z]+` run,
a literal `-`, the maximal `\w+` run, then group 3 and the tail.  Returns
`(ce, post, partList)`. -/
def matchCEFrom (l : List Char) : Option (List Char × List Char × List Char) :=
  let low := l.takeWhile isAsciiLowerAlpha
  if low = [] then none
  else
    match l.drop low.length with
    | '-' :: afterDash =>
      let w := afterDash.takeWhile isJsWordChar
      if w = [] then none
      else
        (matchPostAndList (afterDash.drop w.length) []).map
          (fun (post, pl) => (low ++ '-' :: w, post, pl))
    | _ => none

/-- Assembly of a successful match: group 1 is the part of the consumed
prefix (held reversed in `preRev`) after the latest line terminator
(group 1 cannot match line terminators), the other groups come from
`matchCEFrom`. -/
def mkPartSelectorResult (preRev : List Char)
    (g : List Char × List Char × List Char) : PartSelectorResult :=
  { pre := String.mk (preRev.takeWhile isJsDot).reverse
    ce := String.mk g.1
    post := String.mk g.2.1
    partList := String.mk g.2.2 }

/-- The unanchored scan: successive start positions for group 2 are tried
left to right. -/
def parsePartSelectorAux : List Char → List Char → Option PartSelectorResult
  | preRev, [] => (matchCEFrom []).map (mkPartSelectorResult preRev)
  | preRev, c :: rest =>
    match matchCEFrom (c :: rest) with
    | some g => some (mkPartSelectorResult preRev g)
    | none => parsePartSelectorAux (c :: preRev) rest

/-- Source `parsePartSelector`: match `PART_REGEX` against the selector
and destructure the groups; `none` models the `null` return. -/
def parsePartSelector (selector : String) : Option PartSelectorResult :=
  parsePartSelectorAux [] selector.toList

example : parsePartSelector "x-a::part(foo)" =
    some { pre := "", ce := "x-a", post := "", partList := "foo" } := by
  decide
example : parsePartSelector "::part(foo)" = none := by decide
example : parsePartSelector ".cls x-a::part(foo)" =
    some { pre := ".cls ", ce := "x-a", post := "", partList := "foo" } := by
  decide
example : parsePartSelector ".foo-bar::part(x)" =
    some { pre := ".", ce := "foo-bar", post := "", partList := "x" } := by
  decide
example : parsePartSelector "x-a.bar::part(foo)" =
    some { pre := "", ce := "x-a", post := ".bar", partList := "foo" } := by
  decide
example : parsePartSelector ".bar::part(foo)" = none := by decide
example : parsePartSelector "x-a::part(foo, bar)" =
    some { pre := "", ce := "x-a", post := "", partList := "foo, bar" } := by
  decide

/-! ## Specifier formatter -/

/-- Source `formatPartSpecifier`: the template literal
`hostScope + "_" + scope + "_" + partName`. -/
def formatPartSpecifier (partName scope hostScope : String) : String :=
  hostScope ++ "_" ++ scope ++ "_" ++ partName

/-- Source `formatPartSelector`: each part name of the whitespace-separated
list becomes an attribute-presence selector on `shady-part`, joined with no
separator. -/
def formatPartSelector (parts scope hostScope : String) : String :=
  String.join
    ((parsePartAttribute (some parts)).map
      (fun part =>
        "[shady-part~=" ++ formatPartSpecifier part scope hostScope ++ "]"))

example : formatPartSpecifier "x" "a" "b" = "b_a_x" := by decide

/-! ## DOM elements and attributes -/

/-- A DOM element: its lowercase tag name (`localName`) and its attribute
list (at most one entry per attribute name, in document order of
creation). -/
structure Elem where
  tag : String
  attrs : List (String × String)
deriving DecidableEq, Repr

/-- DOM `getAttribute`: the value of the first entry with the given name,
or `none` modelling `null`. -/
def getAttr (e : Elem) (name : String) : Option String :=
  (e.attrs.find? (fun p => p.1 = name)).map (fun p => p.2)

/-- Attribute-list update: replace the value of the first entry with the
given name in place, or append a new entry at the end. -/
def setAttrList : List (String × String) → String → String →
    List (String × String)
  | [], name, v => [(name, v)]
  | p :: rest, name, v =>
    if p.1 = name then (p.1, v) :: rest else p :: setAttrList rest name v

/-- DOM `setAttribute`: replace the value of an existing entry in place, or
append a new entry. -/
def setAttr (e : Elem) (name v : String) : Elem :=
  { e with attrs := setAttrList e.attrs name v }

/-- DOM `removeAttribute`: drop every entry with the given name. -/
def removeAttr (e : Elem) (name : String) : Elem :=
  { e with attrs := e.attrs.filter (fun p => p.1 ≠ name) }

/-- Source `addPartSpecifier`: append the specifier to the `shady-part`
attribute, space separated, creating the attribute if absent. -/
def addPartSpecifier (e : Elem) (specifier : String) : Elem :=
  match getAttr e "shady-part" with
  | none => setAttr e "shady-part" specifier
  | some existing => setAttr e "shady-part" (existing ++ " " ++ specifier)

/-- Source `removeAllPartSpecifiers`: remove the `shady-part` attribute. -/
def removeAllPartSpecifiers (e : Elem) : Elem :=
  removeAttr e "shady-part"

/-! ## Roots and scopes -/

/-- The position of a node's root (`getRootNode`), given from the inside
out: the root is the top-level document, a detached root with no `host`
property, or the shadow root of a host element with the given tag name and
`exportparts` attribute whose own root has the given position. -/
inductive Context where
  | document : Context
  | detached : Context
  | inShadow (hostTag : String) (hostExportparts : Option String)
      (outer : Context) : Context
deriving DecidableEq, Repr

/-- Source `scopeForRoot`: `"document"` for the top-level document, the
host's lowercase tag name for a shadow root, and `undefined` (modelled
`none`) for a root with no host. -/
def scopeForRoot : Context → Option String
  | Context.document => some "document"
  | Context.detached => none
  | Context.inShadow hostTag _ _ => some hostTag

/-! ## Export-parts resolver -/

/-- An entry of the export-parts map: the part is visible in scope `scope`
(whose own host scope is `hostScope`) under name `partName`. -/
structure PartEntry where
  partName : String
  scope : String
  hostScope : String
deriving DecidableEq, Repr

/-- The export-parts map, a JavaScript plain object keyed by inner part
name, modelled as an association list of own properties. -/
abbrev ExportPartsMap := List (String × List PartEntry)

/-- Property read `map[inner]`: the first (only) entry with the key, or
`undefined` modelled as `none`. -/
def epmLookup (m : ExportPartsMap) (key : String) : Option (List PartEntry) :=
  (m.find? (fun p => p.1 = key)).map (fun p => p.2)

/-- The loop body of `getExportPartsMap` on one `{inner, outer}` record:
`map[inner]` is created as `[]` if absent, and the given entries (the
freshly built one plus any forwarded from the super-map) are pushed onto
it in order. -/
def epmAppend : ExportPartsMap → String → List PartEntry → ExportPartsMap
  | [], key, es => [(key, es)]
  | p :: rest, key, es =>
    if p.1 = key then (p.1, p.2 ++ es) :: rest
    else p :: epmAppend rest key es

/-- The `for` loop of `getExportPartsMap` over the parsed records. -/
def exportPartsLoop (hostScope scope : String)
    (superExports : ExportPartsMap) :
    List ExportPair → ExportPartsMap → ExportPartsMap
  | [], m => m
  | pr :: rest, m =>
    let fresh : PartEntry :=
      { partName := pr.outer, scope := scope, hostScope := hostScope }
    let es :=
      match epmLookup superExports pr.outer with
      | none => [fresh]
      | some superParts => fresh :: superParts
    exportPartsLoop hostScope scope superExports rest (epmAppend m pr.inner es)

/-- Source `getExportPartsMap`, total core.  The host is given by its
`exportparts` attribute value and the `Context` of its root.  An absent
attribute or a document root yields the empty map; with a shadow root, the
super-host is the root's host, whose own root determines `hostScope`
(`undefined`, i.e. a detached super-root, yields the empty map before
recursing); otherwise the parsed records are folded over the recursively
computed super-map.  The `detached` case at the host's own level is dead
code here (the caller `getExportPartsMap` returns `none` for it, and the
recursion only descends into non-detached contexts). -/
def exportPartsMapCore : Option String → Context → ExportPartsMap
  | none, _ => []
  | some _, Context.document => []
  | some _, Context.detached => []
  | some attr, Context.inShadow superTag superAttr outer =>
    match scopeForRoot outer with
    | none => []
    | some hostScope =>
      let superExports := exportPartsMapCore superAttr outer
      exportPartsLoop hostScope superTag superExports
        (parseExportPartsAttribute (some attr)) []

/-- Source `getExportPartsMap`: on a host whose root has no `host` property
and is not the document (a detached root), the code reads
`root.host.localName` and throws a `TypeError` (modelled `none`) whenever
the `exportparts` attribute is present; every other case is total. -/
def getExportPartsMap (attr : Option String) (ctx : Context) :
    Option ExportPartsMap :=
  match attr, ctx with
  | some _, Context.detached => none
  | a, c => some (exportPartsMapCore a c)

example :
    exportPartsMapCore (some "c1:b2")
      (Context.inShadow "x-b" (some "b1:a2,b2:a3")
        (Context.inShadow "x-a" none Context.document)) =
    [("c1",
      [{ partName := "b2", scope := "x-b", hostScope := "x-a" },
       { partName := "a3", scope := "x-a", hostScope := "document" }])] := by
  decide
example :
    exportPartsMapCore (some "b1:a2,b2:a3")
      (Context.inShadow "x-a" none Context.document) =
    [("b1", [{ partName := "a2", scope := "x-a", hostScope := "document" }]),
     ("b2", [{ partName := "a3", scope := "x-a", hostScope := "document" }])] := by
  decide
example : exportPartsMapCore (some "a:b") Context.document = [] := by decide

/-! ## Part rule registry -/

/-- A parsed style rule as the registry stores it: its selector and raw
declaration text. -/
structure StyleRule where
  selector : String
  cssText : String
deriving DecidableEq, Repr

/-- The module-level `partRuleCustomProperties` map, keyed by
`[elementName, ce, partList].join(':')`, modelled as an association
list. -/
abbrev PartRuleRegistry := List (String × List StyleRule)

/-- Source `customPropertyRulesForPart`: look up
`[parentScope, childScope, partName].join(':')`; a missing key yields
`[]`. -/
def customPropertyRulesForPart (reg : PartRuleRegistry)
    (parentScope childScope partName : String) : List StyleRule :=
  let key := parentScope ++ ":" ++ childScope ++ ":" ++ partName
  match (reg.find? (fun p => p.1 = key)).map (fun p => p.2) with
  | none => []
  | some rules => rules

/-! ## Scope identity cache -/

/-- Decimal digits of `n`, least significant first, with explicit
structural fuel (any fuel above `n` is enough, see
`natDigitsRevGo_fuel_irrelevant` style lemmas below). -/
def natDigitsRevGo : Nat → Nat → List Nat
  | _, 0 => []
  | n, fuel + 1 => if n < 10 then [n] else n % 10 :: natDigitsRevGo (n / 10) fuel

/-- Decimal digits of `n`, least significant first. -/
def natDigitsRev (n : Nat) : List Nat :=
  natDigitsRevGo n (n + 1)

/-- The character of a decimal digit. -/
def digitChar (d : Nat) : Char :=
  Char.ofNat (48 + d)

/-- JavaScript `String(n)` for a non-negative integer `n`: its decimal
digit string. -/
def natRepr (n : Nat) : String :=
  String.mk ((natDigitsRev n).map digitChar).reverse

example : natRepr 0 = "0" := by decide
example : natRepr 1 = "1" := by decide
example : natRepr 210 = "210" := by decide

/-- Modelled from the spec: the fingerprinted `StyleCache` instance
(`style-cache.js`, not among the sources under verification, spec 4.6 and
6).  An entry associates a composite key and a fingerprint of the live
custom-property state with a stored id; `fetch` returns the id stored
against the key and fingerprint ("a hit returns the previously stored
id"), `none` modelling a miss. -/
def partCacheFetch (cache : List (String × String × String))
    (key fingerprint : String) : Option String :=
  (cache.find? (fun e => e.1 = key && e.2.1 = fingerprint)).map
    (fun e => e.2.2)

/-- Modelled from the spec: `StyleCache.store` records the id against the
key and fingerprint ("stores it against the fingerprint before returning
it", spec 4.6). -/
def partCacheStore (cache : List (String × String × String))
    (key fingerprint id : String) : List (String × String × String) :=
  cache ++ [(key, fingerprint, id)]

/-- The module-level mutable state behind `getPartId`: the `partCache`
`StyleCache` and the `partNumber` counter. -/
structure PartIdState where
  cache : List (String × String × String)
  partNumber : Nat
deriving DecidableEq, Repr

/-- Source `getPartId`: build the key `partName + ':' + parentScope + ':'
+ childScope`, fetch from the cache under the live custom-property
fingerprint (the `styleInfo` argument of the source); on a hit return the
stored `scopeSelector`, on a miss stringify and post-increment the
process-wide counter, store and return it. -/
def getPartId (st : PartIdState)
    (partName parentScope childScope fingerprint : String) :
    String × PartIdState :=
  let key := partName ++ ":" ++ parentScope ++ ":" ++ childScope
  match partCacheFetch st.cache key fingerprint with
  | some stored => (stored, st)
  | none =>
    let id := natRepr st.partNumber
    (id,
      { cache := partCacheStore st.cache key fingerprint id
        partNumber := st.partNumber + 1 })

/-! ## Tree scoper -/

/-- The inner `for (const partName of parsePartAttribute(partAttr))` loop
of `scopeAllHostParts` on one part node: with custom-property rules
registered for `(hostScope, scope, partName)` the specifier embeds a scope
id from the cache (the style synthesis and injection the source performs
with the rules touches no attribute and is not modelled); otherwise the
plain specifier is attached; afterwards every forwarded specifier from the
export-parts map is attached in order. -/
def scopeOnePartName (reg : PartRuleRegistry) (fingerprint : String)
    (scope hostScope : String) (epm : ExportPartsMap) (partName : String)
    (e : Elem) (st : PartIdState) : Elem × PartIdState :=
  let rules := customPropertyRulesForPart reg hostScope scope partName
  let (e1, st1) :=
    if rules.length > 0 then
      let (partId, st') := getPartId st partName hostScope scope fingerprint
      (addPartSpecifier e
        (formatPartSpecifier (partName ++ "_" ++ partId) scope hostScope),
        st')
    else
      (addPartSpecifier e (formatPartSpecifier partName scope hostScope), st)
  let e2 :=
    match epmLookup epm partName with
    | none => e1
    | some exportParts =>
      exportParts.foldl
        (fun acc en =>
          addPartSpecifier acc
            (formatPartSpecifier en.partName en.scope en.hostScope))
        e1
  (e2, st1)

/-- The iteration of `scopeOnePartName` over the declared part names. -/
def scopePartNamesLoop (reg : PartRuleRegistry) (fingerprint : String)
    (scope hostScope : String) (epm : ExportPartsMap) :
    List String → Elem → PartIdState → Elem × PartIdState
  | [], e, st => (e, st)
  | partName :: rest, e, st =>
    let (e2, st1) :=
      scopeOnePartName reg fingerprint scope hostScope epm partName e st
    scopePartNamesLoop reg fingerprint scope hostScope epm rest e2 st1

/-- The body of the `for (const partNode of partNodes)` loop of
`scopeAllHostParts`: clear the previously attached specifiers, then attach
one specifier per declared part name and forwarding entry. -/
def scopePartNode (reg : PartRuleRegistry) (fingerprint : String)
    (scope hostScope : String) (epm : ExportPartsMap) (e : Elem)
    (st : PartIdState) : Elem × PartIdState :=
  let e0 := removeAllPartSpecifiers e
  scopePartNamesLoop reg fingerprint scope hostScope epm
    (parsePartAttribute (getAttr e0 "part")) e0 st

/-- The loop of `scopeAllHostParts` over the shadow tree's elements in
document order: `querySelectorAll('[part]')` selects exactly the elements
whose `part` attribute is present, and the others are untouched. -/
def scopeNodesLoop (reg : PartRuleRegistry) (fingerprint : String)
    (scope hostScope : String) (epm : ExportPartsMap) :
    List Elem → PartIdState → List Elem × PartIdState
  | [], st => ([], st)
  | e :: rest, st =>
    if (getAttr e "part").isSome then
      let (e', st') := scopePartNode reg fingerprint scope hostScope epm e st
      let (rest', st'') :=
        scopeNodesLoop reg fingerprint scope hostScope epm rest st'
      (e' :: rest', st'')
    else
      let (rest', st') :=
        scopeNodesLoop reg fingerprint scope hostScope epm rest st
      (e :: rest', st')

/-- Source `scopeAllHostParts`.  The host element is given together with
the contents of its shadow root (`none` when it has no shadow root, in
which case the call is a no-op) and the `Context` of its own root; the
`fingerprint` stands for the live custom-property state of the host's
`StyleInfo` (spec 4.6).  The guards mirror the source: no shadow root, no
part-bearing descendant, or an undetermined root scope return without
touching anything; otherwise every part-bearing descendant is rescoped in
document order, threading the scope-identity cache state. -/
def scopeAllHostParts (reg : PartRuleRegistry) (fingerprint : String)
    (host : Elem) (ctx : Context) (shadow : Option (List Elem))
    (st : PartIdState) : Option (List Elem) × PartIdState :=
  match shadow with
  | none => (none, st)
  | some nodes =>
    if nodes.countP (fun e => (getAttr e "part").isSome) = 0 then
      (some nodes, st)
    else
      match scopeForRoot ctx with
      | none => (some nodes, st)
      | some hostScope =>
        let scope := host.tag
        let epm := exportPartsMapCore (getAttr host "exportparts") ctx
        let (nodes', st') :=
          scopeNodesLoop reg fingerprint scope hostScope epm nodes st
        (some nodes', st')

/-! ## Mutation handlers -/

/-- The position of an ordinary element's root (`element.getRootNode()`):
the element itself (not yet inserted anywhere), the top-level document, a
detached fragment root with no `host` property, or the shadow root of a
host with the given tag, `exportparts` attribute, and root position. -/
inductive ElemRoot where
  | self : ElemRoot
  | document : ElemRoot
  | frag : ElemRoot
  | inShadow (hostTag : String) (hostExportparts : Option String)
      (outer : Context) : ElemRoot
deriving DecidableEq, Repr

/-- The loop body of `addPartSpecifiersToElement` on one part name: the
own-scope specifier is appended, then every forwarded specifier from the
export-parts map, in order. -/
def addSpecifiersForName (scope superScope : String) (epm : ExportPartsMap)
    (acc : Elem) (partName : String) : Elem :=
  let acc1 :=
    addPartSpecifier acc (formatPartSpecifier partName scope superScope)
  match epmLookup epm partName with
  | none => acc1
  | some exportParts =>
    exportParts.foldl
      (fun a en =>
        addPartSpecifier a
          (formatPartSpecifier en.partName en.scope en.hostScope))
      acc1

/-- Source `addPartSpecifiersToElement`: a root equal to the element or to
the document returns unchanged (parts cannot apply); a fragment root with
no host makes `root.host.localName` throw (modelled `none`), as does a
detached super-root via `superRoot.host.localName`; otherwise one
specifier per part name plus every forwarded specifier is appended to the
element's existing `shady-part` attribute. -/
def addPartSpecifiersToElement (e : Elem) (partNames : List String)
    (root : ElemRoot) : Option Elem :=
  match root with
  | ElemRoot.self => some e
  | ElemRoot.document => some e
  | ElemRoot.frag => none
  | ElemRoot.inShadow hostTag hostAttr outer =>
    match outer with
    | Context.detached => none
    | _ =>
      let scope := hostTag
      let superScope := (scopeForRoot outer).getD ""
      let epm := exportPartsMapCore hostAttr outer
      some (partNames.foldl (addSpecifiersForName scope superScope epm) e)

/-- Source `onPartAttributeChanged`: a falsy new value (absent or empty)
strips all specifiers; otherwise specifiers for the parsed new part-name
list are attached via `addPartSpecifiersToElement`.  The unused `oldValue`
parameter of the source is omitted. -/
def onPartAttributeChanged (e : Elem) (newValue : Option String)
    (root : ElemRoot) : Option Elem :=
  if newValue = none ∨ newValue = some "" then
    some (removeAllPartSpecifiers e)
  else
    addPartSpecifiersToElement e (parsePartAttribute newValue) root

/-! ## The worked example of the source header comment

Three nested hosts: `x-a` in the document with shadow children
`div[part=a1]` and `x-b[exportparts="b1:a2,b2:a3"]`; `x-b` with shadow
children `div[part=b1]` and `x-c[exportparts="c1:b2"]`; `x-c` with shadow
child `div[part=c1]`.  No template with `::part` rules consuming custom
properties has been prepared, so the registry is empty. -/

/-- The host `x-a` of the worked example. -/
def exHostA : Elem := { tag := "x-a", attrs := [] }

/-- The host `x-b` of the worked example. -/
def exHostB : Elem :=
  { tag := "x-b", attrs := [("exportparts", "b1:a2,b2:a3")] }

/-- The host `x-c` of the worked example. -/
def exHostC : Elem := { tag := "x-c", attrs := [("exportparts", "c1:b2")] }

/-- The `div[part=a1]` of the worked example. -/
def exDivA1 : Elem := { tag := "div", attrs := [("part", "a1")] }

/-- The `div[part=b1]` of the worked example. -/
def exDivB1 : Elem := { tag := "div", attrs := [("part", "b1")] }

/-- The `div[part=c1]` of the worked example. -/
def exDivC1 : Elem := { tag := "div", attrs := [("part", "c1")] }

/-- Root position of `x-a`: directly in the document. -/
def exCtxA : Context := Context.document

/-- Root position of `x-b`: in `x-a`'s shadow root. -/
def exCtxB : Context := Context.inShadow "x-a" none exCtxA

/-- Root position of `x-c`: in `x-b`'s shadow root. -/
def exCtxC : Context :=
  Context.inShadow "x-b" (some "b1:a2,b2:a3") exCtxB

/-- The module-level state at the start of the example: empty registry,
empty cache, counter at zero. -/
def exState0 : PartIdState := { cache := [], partNumber := 0 }

/-- Bottom-up application of `scopeAllHostParts` to the worked example:
first `x-c`, then `x-b`, then `x-a`, threading the cache state. -/
def exScopedC : Option (List Elem) × PartIdState :=
  scopeAllHostParts [] "" exHostC exCtxC (some [exDivC1]) exState0

/-- Second bottom-up step, scoping `x-b`'s shadow tree. -/
def exScopedB : Option (List Elem) × PartIdState :=
  scopeAllHostParts [] "" exHostB exCtxB (some [exDivB1, exHostC])
    exScopedC.2

/-- Third bottom-up step, scoping `x-a`'s shadow tree. -/
def exScopedA : Option (List Elem) × PartIdState :=
  scopeAllHostParts [] "" exHostA exCtxA (some [exDivA1, exHostB])
    exScopedB.2

example :
    exScopedC.1 =
      some
        [{ tag := "div",
           attrs :=
             [("part", "c1"),
              ("shady-part",
               "x-b_x-c_c1 x-a_x-b_b2 document_x-a_a3")] }] := by decide
example :
    exScopedB.1 =
      some
        [{ tag := "div",
           attrs :=
             [("part", "b1"),
              ("shady-part", "x-a_x-b_b1 document_x-a_a2")] },
         exHostC] := by decide
example :
    exScopedA.1 =
      some
        [{ tag := "div",
           attrs := [("part", "a1"), ("shady-part", "document_x-a_a1")] },
         exHostB] := by decide

/-! ## Basic attribute lemmas -/

theorem getAttr_setAttr_self (e : Elem) (n v : String) :
    getAttr (setAttr e n v) n = some v := by
  simp only [getAttr, setAttr]
  induction e.attrs with
  | nil => simp [setAttrList]
  | cons p rest ih =>
    by_cases h : p.1 = n
    · simp [setAttrList, h]
    · simpa [setAttrList, h] using ih

theorem find?_setAttrList_ne (l : List (String × String)) (n v n' : String)
    (h : ¬ n = n') :
    (setAttrList l n v).find? (fun p => p.1 = n') =
      l.find? (fun p => p.1 = n') := by
  induction l with
  | nil => simp [setAttrList, List.find?, h]
  | cons p rest ih =>
    by_cases hp : p.1 = n
    · have hb : ¬(p.1 = n') := fun hc => h (hp ▸ hc)
      simp only [setAttrList, if_pos hp]
      rw [List.find?_cons_of_neg _ (by simp [hb]),
        List.find?_cons_of_neg _ (by simp [hb])]
    · by_cases hq : p.1 = n'
      · simp only [setAttrList, if_neg hp]
        rw [List.find?_cons_of_pos _ (by simp [hq]),
          List.find?_cons_of_pos _ (by simp [hq])]
      · simp only [setAttrList, if_neg hp]
        rw [List.find?_cons_of_neg _ (by simp [hq]),
          List.find?_cons_of_neg _ (by simp [hq])]
        exact ih

theorem getAttr_setAttr_ne (e : Elem) (n v n' : String) (h : n' ≠ n) :
    getAttr (setAttr e n v) n' = getAttr e n' := by
  have hne : ¬(n = n') := fun hc => h hc.symm
  simp only [getAttr, setAttr]
  rw [find?_setAttrList_ne e.attrs n v n' hne]

theorem getAttr_removeAttr_self (e : Elem) (n : String) :
    getAttr (removeAttr e n) n = none := by
  simp only [getAttr, removeAttr]
  induction e.attrs with
  | nil => simp
  | cons p rest ih =>
    by_cases hp : p.1 = n
    · rw [List.filter_cons, if_neg (by simp [hp])]
      exact ih
    · rw [List.filter_cons, if_pos (by simp [hp]),
        List.find?_cons_of_neg _ (by simp [hp])]
      exact ih

theorem find?_filter_keyne (l : List (String × String)) (n n' : String)
    (h : ¬ n' = n) :
    (l.filter (fun p => p.1 ≠ n)).find? (fun p => p.1 = n') =
      l.find? (fun p => p.1 = n') := by
  induction l with
  | nil => simp
  | cons p rest ih =>
    by_cases hp : p.1 = n
    · have hb : ¬(p.1 = n') := fun hc => h ((hp ▸ hc : n = n').symm)
      rw [List.filter_cons, if_neg (by simp [hp]),
        List.find?_cons_of_neg _ (by simp [hb])]
      exact ih
    · by_cases hq : p.1 = n'
      · rw [List.filter_cons, if_pos (by simp [hp]),
          List.find?_cons_of_pos _ (by simp [hq]),
          List.find?_cons_of_pos _ (by simp [hq])]
      · rw [List.filter_cons, if_pos (by simp [hp]),
          List.find?_cons_of_neg _ (by simp [hq]),
          List.find?_cons_of_neg _ (by simp [hq])]
        exact ih

theorem getAttr_removeAttr_ne (e : Elem) (n n' : String) (h : n' ≠ n) :
    getAttr (removeAttr e n) n' = getAttr e n' := by
  simp only [getAttr, removeAttr]
  rw [find?_filter_keyne e.attrs n n' h]

theorem tag_setAttr (e : Elem) (n v : String) : (setAttr e n v).tag = e.tag :=
  rfl

theorem getAttr_addPartSpecifier_ne (e : Elem) (s n : String)
    (h : n ≠ "shady-part") :
    getAttr (addPartSpecifier e s) n = getAttr e n := by
  unfold addPartSpecifier
  cases getAttr e "shady-part" <;> simp [getAttr_setAttr_ne _ _ _ _ h]

theorem getAttr_removeAllPartSpecifiers_ne (e : Elem) (n : String)
    (h : n ≠ "shady-part") :
    getAttr (removeAllPartSpecifiers e) n = getAttr e n :=
  getAttr_removeAttr_ne e _ n h

/-- Appending one specifier: the new `shady-part` value. -/
theorem getAttr_addPartSpecifier_self (e : Elem) (s : String) :
    getAttr (addPartSpecifier e s) "shady-part" =
      some
        (match getAttr e "shady-part" with
         | none => s
         | some existing => existing ++ " " ++ s) := by
  unfold addPartSpecifier
  cases getAttr e "shady-part" <;> simp [getAttr_setAttr_self]

/-! ## Frame lemmas: the scoping operations write only `shady-part` -/

theorem getAttr_foldlAdd_ne {α : Type} (g : α → String) (l : List α)
    (e : Elem) (n : String) (h : n ≠ "shady-part") :
    getAttr (l.foldl (fun acc x => addPartSpecifier acc (g x)) e) n =
      getAttr e n := by
  induction l generalizing e with
  | nil => rfl
  | cons x rest ih =>
    rw [List.foldl_cons, ih (addPartSpecifier e (g x)),
      getAttr_addPartSpecifier_ne e (g x) n h]

theorem getAttr_scopeOnePartName_ne (reg : PartRuleRegistry)
    (fingerprint scope hostScope : String) (epm : ExportPartsMap)
    (partName : String) (e : Elem) (st : PartIdState) (n : String)
    (h : n ≠ "shady-part") :
    getAttr
        ((scopeOnePartName reg fingerprint scope hostScope epm partName e
          st).1) n = getAttr e n := by
  unfold scopeOnePartName
  by_cases hr :
      (customPropertyRulesForPart reg hostScope scope partName).length > 0 <;>
    cases hepm : epmLookup epm partName <;>
      simp [hr, hepm, getAttr_foldlAdd_ne, getAttr_addPartSpecifier_ne, h]

theorem getAttr_scopePartNamesLoop_ne (reg : PartRuleRegistry)
    (fingerprint scope hostScope : String) (epm : ExportPartsMap)
    (names : List String) (e : Elem) (st : PartIdState) (n : String)
    (h : n ≠ "shady-part") :
    getAttr
        ((scopePartNamesLoop reg fingerprint scope hostScope epm names e
          st).1) n = getAttr e n := by
  induction names generalizing e st with
  | nil => rfl
  | cons pn rest ih =>
    rw [scopePartNamesLoop]
    have := getAttr_scopeOnePartName_ne reg fingerprint scope hostScope epm
      pn e st n h
    rw [ih _ _, this]

theorem getAttr_scopePartNode_ne (reg : PartRuleRegistry)
    (fingerprint scope hostScope : String) (epm : ExportPartsMap) (e : Elem)
    (st : PartIdState) (n : String) (h : n ≠ "shady-part") :
    getAttr ((scopePartNode reg fingerprint scope hostScope epm e st).1) n =
      getAttr e n := by
  unfold scopePartNode
  rw [getAttr_scopePartNamesLoop_ne _ _ _ _ _ _ _ _ _ h,
    getAttr_removeAllPartSpecifiers_ne _ _ h]

/-- Pairwise relation: the two elements agree on every attribute other
than `shady-part`. -/
def AgreesOffShadyPart (e e' : Elem) : Prop :=
  ∀ n : String, n ≠ "shady-part" → getAttr e' n = getAttr e n

theorem scopeNodesLoop_frame (reg : PartRuleRegistry)
    (fingerprint scope hostScope : String) (epm : ExportPartsMap)
    (nodes : List Elem) (st : PartIdState) :
    List.Forall₂ AgreesOffShadyPart nodes
      ((scopeNodesLoop reg fingerprint scope hostScope epm nodes st).1) := by
  induction nodes generalizing st with
  | nil => exact List.Forall₂.nil
  | cons e rest ih =>
    rw [scopeNodesLoop]
    by_cases hp : (getAttr e "part").isSome <;> simp only [hp, if_true, if_false]
    · exact List.Forall₂.cons
        (fun n hn => getAttr_scopePartNode_ne reg fingerprint scope hostScope
          epm e st n hn)
        (ih _)
    · exact List.Forall₂.cons (fun n _ => rfl) (ih _)

theorem getAttr_addSpecifiersForName_ne (scope superScope : String)
    (epm : ExportPartsMap) (e : Elem) (partName n : String)
    (h : n ≠ "shady-part") :
    getAttr (addSpecifiersForName scope superScope epm e partName) n =
      getAttr e n := by
  unfold addSpecifiersForName
  cases hepm : epmLookup epm partName <;>
    simp [hepm, getAttr_foldlAdd_ne, getAttr_addPartSpecifier_ne, h]

theorem getAttr_addPartSpecifiersToElement_ne (e : Elem)
    (partNames : List String) (root : ElemRoot) (e' : Elem)
    (hres : addPartSpecifiersToElement e partNames root = some e')
    (n : String) (h : n ≠ "shady-part") : getAttr e' n = getAttr e n := by
  have main :
      ∀ (scope superScope : String) (epm : ExportPartsMap)
        (names : List String) (e0 : Elem),
        getAttr (names.foldl (addSpecifiersForName scope superScope epm) e0)
            n = getAttr e0 n := by
    intro scope superScope epm names
    induction names with
    | nil => intro e0; rfl
    | cons pn rest ih =>
      intro e0
      rw [List.foldl_cons, ih,
        getAttr_addSpecifiersForName_ne _ _ _ _ _ _ h]
  cases root with
  | self => cases hres; rfl
  | document => cases hres; rfl
  | frag => cases hres
  | inShadow hostTag hostAttr outer =>
    cases outer with
    | document =>
      simp only [addPartSpecifiersToElement] at hres
      cases hres; exact main _ _ _ _ _
    | detached => cases hres
    | inShadow t a o =>
      simp only [addPartSpecifiersToElement] at hres
      cases hres; exact main _ _ _ _ _

theorem getAttr_onPartAttributeChanged (e : Elem) (newValue : Option String)
    (root : ElemRoot) (e' : Elem)
    (hres : onPartAttributeChanged e newValue root = some e') (n : String)
    (h : n ≠ "shady-part") : getAttr e' n = getAttr e n := by
  unfold onPartAttributeChanged at hres
  by_cases hv : newValue = none ∨ newValue = some ""
  · rw [if_pos hv] at hres
    cases hres
    exact getAttr_removeAllPartSpecifiers_ne e n h
  · rw [if_neg hv] at hres
    exact getAttr_addPartSpecifiersToElement_ne e _ root e' hres n h

theorem scopeAllHostParts_some (reg : PartRuleRegistry) (fingerprint : String)
    (host : Elem) (ctx : Context) (nodes : List Elem) (st : PartIdState) :
    ∃ nodes',
      (scopeAllHostParts reg fingerprint host ctx (some nodes) st).1 =
        some nodes' ∧
      List.Forall₂ AgreesOffShadyPart nodes nodes' := by
  unfold scopeAllHostParts
  by_cases h0 : nodes.countP (fun e => (getAttr e "part").isSome) = 0
  · exact ⟨nodes, by simp [h0], List.forall₂_same.mpr fun e _ n _ => rfl⟩
  · cases hs : scopeForRoot ctx with
    | none => exact ⟨nodes, by simp [h0, hs],
        List.forall₂_same.mpr fun e _ n _ => rfl⟩
    | some hostScope =>
      rcases hX :
        scopeNodesLoop reg fingerprint host.tag hostScope
          (exportPartsMapCore (getAttr host "exportparts") ctx) nodes st with
        ⟨nodes', st'⟩
      refine ⟨nodes', by simp [h0, hs, hX], ?_⟩
      have := scopeNodesLoop_frame reg fingerprint host.tag hostScope
        (exportPartsMapCore (getAttr host "exportparts") ctx) nodes st
      rwa [hX] at this

/-! ## Claim C9: undetermined root scope aborts without touching anything -/

/-- C9.  For every host whose root scope cannot be determined
(`scopeForRoot` yields `undefined` because the outer scope is required but
missing), `scopeAllHostParts` returns early without attaching or removing
any specifier on any descendant: every element of the shadow tree, and the
module state, are returned unchanged. -/
theorem c9_undetermined_scope_noop (reg : PartRuleRegistry)
    (fingerprint : String) (host : Elem) (ctx : Context)
    (shadow : Option (List Elem)) (st : PartIdState)
    (h : scopeForRoot ctx = none) :
    (scopeAllHostParts reg fingerprint host ctx shadow st).1 = shadow ∧
    (scopeAllHostParts reg fingerprint host ctx shadow st).2 = st := by
  cases shadow with
  | none => exact ⟨rfl, rfl⟩
  | some nodes =>
    unfold scopeAllHostParts
    by_cases h0 : nodes.countP (fun e => (getAttr e "part").isSome) = 0
    · simp [h0]
    · simp [h0, h]

/-- Witness for C9: a detached host with a part-bearing shadow child is
left exactly as it was. -/
theorem c9_undetermined_scope_noop_witness :
    (scopeAllHostParts [] "" exHostC Context.detached (some [exDivC1])
        exState0).1 = some [exDivC1] ∧
    (scopeAllHostParts [] "" exHostC Context.detached (some [exDivC1])
        exState0).2 = exState0 :=
  c9_undetermined_scope_noop [] "" exHostC Context.detached (some [exDivC1])
    exState0 (by decide)

/-! ## Claim C10: the operations write only the `shady-part` attribute -/

/-- C10.  Every public scoping operation (`scopeAllHostParts`,
`addPartSpecifier`, `removeAllPartSpecifiers`, `onPartAttributeChanged`)
writes only the `shady-part` attribute of elements: the `part` and
`exportparts` attributes, and every other attribute of every element, are
never modified (for `scopeAllHostParts`, every shadow-tree element of the
result agrees with its original on every attribute other than
`shady-part`). -/
theorem c10_only_shady_part_written :
    (∀ (e : Elem) (s n : String), n ≠ "shady-part" →
      getAttr (addPartSpecifier e s) n = getAttr e n) ∧
    (∀ (e : Elem) (n : String), n ≠ "shady-part" →
      getAttr (removeAllPartSpecifiers e) n = getAttr e n) ∧
    (∀ (e : Elem) (newValue : Option String) (root : ElemRoot) (e' : Elem),
      onPartAttributeChanged e newValue root = some e' →
      ∀ n : String, n ≠ "shady-part" → getAttr e' n = getAttr e n) ∧
    (∀ (reg : PartRuleRegistry) (fingerprint : String) (host : Elem)
      (ctx : Context) (nodes : List Elem) (st : PartIdState),
      ∃ nodes',
        (scopeAllHostParts reg fingerprint host ctx (some nodes) st).1 =
          some nodes' ∧
        List.Forall₂ AgreesOffShadyPart nodes nodes') :=
  ⟨fun e s n h => getAttr_addPartSpecifier_ne e s n h,
    fun e n h => getAttr_removeAllPartSpecifiers_ne e n h,
    fun e v root e' hres n h => getAttr_onPartAttributeChanged e v root e'
      hres n h,
    fun reg fingerprint host ctx nodes st =>
      scopeAllHostParts_some reg fingerprint host ctx nodes st⟩

/-- Witness for C10 at concrete inputs: the `part` attribute survives each
operation untouched. -/
theorem c10_only_shady_part_written_witness :
    getAttr (addPartSpecifier exDivA1 "spec") "part" = getAttr exDivA1 "part" ∧
    getAttr (removeAllPartSpecifiers exDivA1) "part" =
      getAttr exDivA1 "part" ∧
    getAttr { tag := "div", attrs := [("part", "a1")] } "part" =
      getAttr exDivA1 "part" ∧
    List.Forall₂ AgreesOffShadyPart [exDivA1]
      (((scopeAllHostParts [] "" exHostA Context.document (some [exDivA1])
          exState0).1).getD []) := by
  refine ⟨c10_only_shady_part_written.1 exDivA1 "spec" "part" (by decide),
    c10_only_shady_part_written.2.1 exDivA1 "part" (by decide),
    c10_only_shady_part_written.2.2.1 exDivA1 none ElemRoot.document
      { tag := "div", attrs := [("part", "a1")] } (by decide) "part"
      (by decide), ?_⟩
  obtain ⟨nodes', h1, h2⟩ :=
    c10_only_shady_part_written.2.2.2 [] "" exHostA Context.document
      [exDivA1] exState0
  rw [h1]
  exact h2

/-! ## Claim C1: the worked example's specifiers -/

/-- The specifiers an element carries: its `shady-part` attribute value
split on whitespace. -/
def carriedSpecifiers (e : Elem) : List String :=
  parsePartAttribute (getAttr e "shady-part")

/-- The element declaring `part="c1"` after the bottom-up scoping of the
worked example (it lives in `x-c`'s shadow tree, which only the `x-c` call
rewrites). -/
def exScopedC1Elem : Elem :=
  (exScopedC.1.getD []).getD 0 { tag := "", attrs := [] }

/-- C1 counterexample.  In the three-level worked example, the element
with `part="c1"` carries the three specifiers `x-b_x-c_c1`, `x-a_x-b_b2`,
`document_x-a_a3` — `formatPartSpecifier` produces
`hostScope_scope_partName` with no `part_` prefix, so the claimed
specifiers `part_x-b_x-c_c1`, `part_x-a_x-b_b2`, `part_document_x-a_a3`
(taken from the source's header comment, which shows prefixed class names)
are not what the code attaches. -/
theorem c1_prefixed_specifiers_refuted :
    carriedSpecifiers exScopedC1Elem =
      ["x-b_x-c_c1", "x-a_x-b_b2", "document_x-a_a3"] ∧
    carriedSpecifiers exScopedC1Elem ≠
      ["part_x-b_x-c_c1", "part_x-a_x-b_b2", "part_document_x-a_a3"] := by
  decide

/-- C1 amended.  Applying `scopeAllHostParts` bottom-up to the worked
example leaves the element with `part="c1"` carrying, in its `shady-part`
attribute, exactly the three specifiers `x-b_x-c_c1`, `x-a_x-b_b2`,
`document_x-a_a3` in that order (the claimed specifiers without the
`part_` prefix); the other two part-bearing elements receive the values
the source's header comment describes, likewise unprefixed. -/
theorem c1_worked_example_specifiers :
    carriedSpecifiers exScopedC1Elem =
      ["x-b_x-c_c1", "x-a_x-b_b2", "document_x-a_a3"] ∧
    exScopedC.1 =
      some
        [{ tag := "div",
           attrs :=
             [("part", "c1"),
              ("shady-part", "x-b_x-c_c1 x-a_x-b_b2 document_x-a_a3")] }] ∧
    exScopedB.1 =
      some
        [{ tag := "div",
           attrs :=
             [("part", "b1"),
              ("shady-part", "x-a_x-b_b1 document_x-a_a2")] },
         exHostC] ∧
    exScopedA.1 =
      some
        [{ tag := "div",
           attrs := [("part", "a1"), ("shady-part", "document_x-a_a1")] },
         exHostB] := by
  decide

/-! ## Claim C5: part-selector matching -/

theorem matchCEFrom_no_hyphen (l : List Char) (h : ∀ c ∈ l, c ≠ '-') :
    matchCEFrom l = none := by
  simp only [matchCEFrom]
  split
  · rfl
  · cases hd : l.drop (l.takeWhile isAsciiLowerAlpha).length with
    | nil => rfl
    | cons c rest =>
      have hc : c ≠ '-' := by
        apply h
        exact List.drop_subset _ l (hd ▸ List.mem_cons_self c rest)
      split
      · rename_i heq
        exact absurd (List.cons.injEq _ _ _ _ ▸ heq).1 hc
      · rfl

theorem parsePartSelectorAux_no_hyphen (preRev l : List Char)
    (h : ∀ c ∈ l, c ≠ '-') : parsePartSelectorAux preRev l = none := by
  induction l generalizing preRev with
  | nil => rfl
  | cons c rest ih =>
    rw [parsePartSelectorAux, matchCEFrom_no_hyphen (c :: rest) h]
    exact ih (c :: preRev) (fun d hd => h d (List.mem_cons_of_mem c hd))

/-- C5 counterexample.  A selector whose only prefix is a class selector
(or an attribute selector) with no element name does match when the class
or attribute name contains a hyphen: the regex cannot tell a hyphenated
class name from a custom-element tag, so the claimed universal "returns
none for every selector lacking a custom-element tag immediately preceding
`::part`" fails. -/
theorem c5_hyphenated_class_matches :
    parsePartSelector ".foo-bar::part(x)" =
      some { pre := ".", ce := "foo-bar", post := "", partList := "x" } ∧
    parsePartSelector "[data-x]::part(x)" =
      some { pre := "[", ce := "data-x", post := "]", partList := "x" } ∧
    parsePartSelector ".foo-bar::part(x)" ≠ none := by decide

/-- C5 amended.  `parsePartSelector("x-a::part(foo)")` yields
`{pre:"", ce:"x-a", post:"", partList:"foo"}`;
`parsePartSelector(".cls x-a::part(foo)")` yields a match with non-empty
`pre`; bare `::part(...)` yields none; and every selector containing no
hyphen at all (which covers bare `::part(...)` and class/attribute
prefixes without hyphenated names) yields none, since the mandatory
custom-element group `[a-z]+-\w+` requires a hyphen — but a class or
attribute selector whose name itself contains a hyphen is treated as a
custom-element tag and can match. -/
theorem c5_selector_matching :
    parsePartSelector "x-a::part(foo)" =
      some { pre := "", ce := "x-a", post := "", partList := "foo" } ∧
    parsePartSelector ".cls x-a::part(foo)" =
      some { pre := ".cls ", ce := "x-a", post := "", partList := "foo" } ∧
    (parsePartSelector ".cls x-a::part(foo)").map (fun r => r.pre) ≠
      some "" ∧
    parsePartSelector "::part(foo)" = none ∧
    ∀ s : String, (∀ c ∈ s.toList, c ≠ '-') → parsePartSelector s = none := by
  refine ⟨by decide, by decide, by decide, by decide, ?_⟩
  intro s h
  exact parsePartSelectorAux_no_hyphen [] s.toList h

/-- Witness for C5 at a concrete input: `.bar::part(foo)` contains no
hyphen, so the amended universal clause applies and yields none. -/
theorem c5_selector_matching_witness :
    parsePartSelector ".bar::part(foo)" = none :=
  c5_selector_matching.2.2.2.2 ".bar::part(foo)" (by decide)

/-! ## Claim C4: `parseExportPartsAttribute` -/

/-- C4 counterexample.  The claim that every element of
`parseExportPartsAttribute(s)` has non-empty `inner` and `outer` fails at
`s = ","`: the empty comma tokens parse as self-mappings of the empty
name, so both resulting records have empty `inner` and `outer`. -/
theorem c4_empty_inner_outer :
    parseExportPartsAttribute (some ",") = [⟨"", ""⟩, ⟨"", ""⟩] ∧
    ¬(∀ e ∈ parseExportPartsAttribute (some ","),
        e.inner ≠ "" ∧ e.outer ≠ "") := by decide

/-- C4 amended.  Every element of `parseExportPartsAttribute(s)` arises
from one comma-separated token of `s` (a token without colon maps a name
to itself, one colon gives `{left, right}`), so `inner`/`outer` are empty
exactly when that token's colon sides are empty (e.g. for `","`), and
non-empty otherwise; `"a,b:c"` parses to `[{a,a},{b,c}]`; a token with
more than one colon (e.g. in `"a:b:c"`) is omitted from the result while
the remaining tokens are still processed. -/
theorem c4_export_pairs_from_tokens :
    parseExportPartsAttribute (some "a,b:c") = [⟨"a", "a"⟩, ⟨"b", "c"⟩] ∧
    parseExportPartsAttribute (some "a:b:c") = [] ∧
    parseExportPartsAttribute (some "x,a:b:c,y") =
      [⟨"x", "x"⟩, ⟨"y", "y"⟩] ∧
    ∀ (s : String) (e : ExportPair), e ∈ parseExportPartsAttribute (some s) →
      ∃ tok ∈ jsSplitAroundSep ',' false [] [] s.toList,
        parseExportPartsToken (String.mk tok) = some e := by
  refine ⟨by decide, by decide, by decide, ?_⟩
  intro s e he
  simp only [parseExportPartsAttribute] at he
  by_cases hs : s = ""
  · rw [if_pos hs] at he
    exact absurd he (List.not_mem_nil e)
  · rw [if_neg hs] at he
    exact List.mem_filterMap.mp he

/-- Witness for C4 at a concrete input: the record `{b, c}` produced from
`"a,b:c"` comes from one of its comma tokens. -/
theorem c4_export_pairs_from_tokens_witness :
    ∃ tok ∈ jsSplitAroundSep ',' false [] [] "a,b:c".toList,
      parseExportPartsToken (String.mk tok) = some ⟨"b", "c"⟩ :=
  c4_export_pairs_from_tokens.2.2.2 "a,b:c" ⟨"b", "c"⟩ (by decide)

/-! ## Claim C2: `getExportPartsMap` -/

theorem epmLookup_cons_eq (p : String × List PartEntry) (l : ExportPartsMap)
    (k : String) (h : p.1 = k) : epmLookup (p :: l) k = some p.2 := by
  rw [epmLookup, List.find?_cons_of_pos _ (by simp [h])]
  rfl

theorem epmLookup_cons_ne (p : String × List PartEntry) (l : ExportPartsMap)
    (k : String) (h : ¬ p.1 = k) : epmLookup (p :: l) k = epmLookup l k := by
  rw [epmLookup, List.find?_cons_of_neg _ (by simp [h])]
  rfl

theorem epmLookup_epmAppend_self (m : ExportPartsMap) (k : String)
    (es : List PartEntry) :
    epmLookup (epmAppend m k es) k =
      some ((epmLookup m k).getD [] ++ es) := by
  induction m with
  | nil =>
    rw [epmAppend, epmLookup_cons_eq _ _ _ rfl]
    rfl
  | cons p rest ih =>
    by_cases hp : p.1 = k
    · rw [show epmAppend (p :: rest) k es = (p.1, p.2 ++ es) :: rest from by
        rw [epmAppend, if_pos hp]]
      rw [epmLookup_cons_eq (p.1, p.2 ++ es) rest k hp,
        epmLookup_cons_eq p rest k hp]
      rfl
    · rw [show epmAppend (p :: rest) k es = p :: epmAppend rest k es from by
        rw [epmAppend, if_neg hp]]
      rw [epmLookup_cons_ne p (epmAppend rest k es) k hp,
        epmLookup_cons_ne p rest k hp, ih]

theorem epmLookup_epmAppend_ne (m : ExportPartsMap) (k : String)
    (es : List PartEntry) (k' : String) (h : ¬ k = k') :
    epmLookup (epmAppend m k es) k' = epmLookup m k' := by
  induction m with
  | nil => rw [epmAppend, epmLookup_cons_ne _ _ _ h]
  | cons p rest ih =>
    by_cases hp : p.1 = k
    · have hb : ¬(p.1 = k') := fun hc => h (hp ▸ hc)
      rw [show epmAppend (p :: rest) k es = (p.1, p.2 ++ es) :: rest from by
        rw [epmAppend, if_pos hp]]
      rw [epmLookup_cons_ne (p.1, p.2 ++ es) rest k' hb,
        epmLookup_cons_ne p rest k' hb]
    · rw [show epmAppend (p :: rest) k es = p :: epmAppend rest k es from by
        rw [epmAppend, if_neg hp]]
      by_cases hq : p.1 = k'
      · rw [epmLookup_cons_eq p (epmAppend rest k es) k' hq,
          epmLookup_cons_eq p rest k' hq]
      · rw [epmLookup_cons_ne p (epmAppend rest k es) k' hq,
          epmLookup_cons_ne p rest k' hq, ih]

/-- The entries that the `getExportPartsMap` loop contributes to the key
`inner`: one freshly built entry per `{inner, outer}` record declaring
this `inner`, each followed by the super-map's entries for its `outer`, in
declaration order. -/
def forwardedEntries (hostScope scope : String) (sup : ExportPartsMap)
    (pairs : List ExportPair) (inner : String) : List PartEntry :=
  (pairs.filter (fun pr => pr.inner = inner)).flatMap
    (fun pr =>
      { partName := pr.outer, scope := scope, hostScope := hostScope } ::
        (epmLookup sup pr.outer).getD [])

theorem epmLookup_exportPartsLoop (hostScope scope : String)
    (sup : ExportPartsMap) (pairs : List ExportPair) (m : ExportPartsMap)
    (inner : String) :
    epmLookup (exportPartsLoop hostScope scope sup pairs m) inner =
      if (pairs.filter (fun pr => pr.inner = inner)).isEmpty then
        epmLookup m inner
      else
        some
          ((epmLookup m inner).getD [] ++
            forwardedEntries hostScope scope sup pairs inner) := by
  induction pairs generalizing m with
  | nil => simp [exportPartsLoop, forwardedEntries]
  | cons pr rest ih =>
    have hes :
        (match epmLookup sup pr.outer with
          | none =>
            [{ partName := pr.outer, scope := scope,
               hostScope := hostScope }]
          | some superParts =>
            { partName := pr.outer, scope := scope,
              hostScope := hostScope } :: superParts) =
          ({ partName := pr.outer, scope := scope,
             hostScope := hostScope } ::
            (epmLookup sup pr.outer).getD []) := by
      cases epmLookup sup pr.outer <;> rfl
    by_cases hpr : pr.inner = inner
    · have hfil :
          (pr :: rest).filter (fun q => q.inner = inner) =
            pr :: rest.filter (fun q => q.inner = inner) := by
        rw [List.filter_cons, if_pos (by simp [hpr])]
      rw [exportPartsLoop, ih, hes, hpr, epmLookup_epmAppend_self, hfil]
      by_cases hre : (rest.filter (fun q => q.inner = inner)).isEmpty
      · rw [if_pos hre, if_neg (by simp)]
        have h0 : rest.filter (fun q => q.inner = inner) = [] :=
          List.isEmpty_iff.mp hre
        simp [forwardedEntries, hfil, h0]
      · rw [if_neg hre, if_neg (by simp)]
        simp [forwardedEntries, hfil, List.append_assoc]
    · have hfil :
          (pr :: rest).filter (fun q => q.inner = inner) =
            rest.filter (fun q => q.inner = inner) := by
        rw [List.filter_cons, if_neg (by simp [hpr])]
      rw [exportPartsLoop, ih, hes, epmLookup_epmAppend_ne _ _ _ _ hpr, hfil]
      simp [forwardedEntries, hfil]

/-- C2 counterexample.  When the same `inner` name is declared in two
`{inner, outer}` records (attribute `"a:x,a:y"`), the entry list for that
`inner` is the concatenation of both records' contributions, so the
claimed per-pair description — "the entry list for `inner` consists of
`{hostScope, scope, partName: outer}` followed by the super-map entries
for that `outer`" — does not hold for either pair on its own. -/
theorem c2_per_pair_description_refuted :
    epmLookup
        (exportPartsMapCore (some "a:x,a:y")
          (Context.inShadow "x-b" none Context.document)) "a" =
      some
        [{ partName := "x", scope := "x-b", hostScope := "document" },
         { partName := "y", scope := "x-b", hostScope := "document" }] ∧
    epmLookup
        (exportPartsMapCore (some "a:x,a:y")
          (Context.inShadow "x-b" none Context.document)) "a" ≠
      some [{ partName := "x", scope := "x-b", hostScope := "document" }] ∧
    epmLookup
        (exportPartsMapCore (some "a:x,a:y")
          (Context.inShadow "x-b" none Context.document)) "a" ≠
      some [{ partName := "y", scope := "x-b", hostScope := "document" }] := by
  decide

/-- C2 amended.  `getExportPartsMap` returns an empty map when the
`exportparts` attribute is absent, when the host's root is the top-level
document (regardless of attribute content), and also when the super-host's
root scope cannot be determined; otherwise the entry list for each `inner`
is the concatenation, over the locally declared `{inner, outer}` records
with that `inner` in order, of `{hostScope, scope, partName: outer}`
followed by every entry of the recursively computed super-host map for
`outer` — so the claimed per-pair description holds exactly when `inner`
is declared by a single record. -/
theorem c2_export_map_characterization :
    (∀ ctx : Context, exportPartsMapCore none ctx = []) ∧
    (∀ attr : Option String, exportPartsMapCore attr Context.document = []) ∧
    (∀ (attr superTag : String) (superAttr : Option String) (outer : Context),
      scopeForRoot outer = none →
      exportPartsMapCore (some attr)
        (Context.inShadow superTag superAttr outer) = []) ∧
    (∀ (attr superTag : String) (superAttr : Option String) (outer : Context)
      (hostScope : String), scopeForRoot outer = some hostScope →
      ∀ inner : String,
        epmLookup
            (exportPartsMapCore (some attr)
              (Context.inShadow superTag superAttr outer)) inner =
          if ((parseExportPartsAttribute (some attr)).filter
              (fun pr => pr.inner = inner)).isEmpty then none
          else
            some
              (forwardedEntries hostScope superTag
                (exportPartsMapCore superAttr outer)
                (parseExportPartsAttribute (some attr)) inner)) := by
  refine ⟨fun ctx => by cases ctx <;> rfl,
    fun attr => by cases attr <;> rfl, ?_, ?_⟩
  · intro attr superTag superAttr outer h
    simp [exportPartsMapCore, h]
  · intro attr superTag superAttr outer hostScope h inner
    have hcore :
        exportPartsMapCore (some attr)
            (Context.inShadow superTag superAttr outer) =
          exportPartsLoop hostScope superTag
            (exportPartsMapCore superAttr outer)
            (parseExportPartsAttribute (some attr)) [] := by
      simp [exportPartsMapCore, h]
    rw [hcore, epmLookup_exportPartsLoop]
    by_cases he :
        ((parseExportPartsAttribute (some attr)).filter
          (fun pr => pr.inner = inner)).isEmpty
    · rw [if_pos he, if_pos he]
      rfl
    · rw [if_neg he, if_neg he]
      rfl

/-- Witness for C2 at the worked example's innermost host: the entry list
for `c1` under `exportparts="c1:b2"` inside `x-b` inside `x-a`. -/
theorem c2_export_map_characterization_witness :
    epmLookup
        (exportPartsMapCore (some "c1:b2")
          (Context.inShadow "x-b" (some "b1:a2,b2:a3") exCtxB)) "c1" =
      if ((parseExportPartsAttribute (some "c1:b2")).filter
          (fun pr => pr.inner = "c1")).isEmpty then none
      else
        some
          (forwardedEntries "x-a" "x-b"
            (exportPartsMapCore (some "b1:a2,b2:a3") exCtxB)
            (parseExportPartsAttribute (some "c1:b2")) "c1") :=
  c2_export_map_characterization.2.2.2 "c1:b2" "x-b" (some "b1:a2,b2:a3")
    exCtxB "x-a" (by decide) "c1"

/-! ## Claim C3: `parsePartAttribute` -/

/-- Splitting on runs of whitespace as the claim words it: the list of
maximal non-whitespace runs of `l`, in order (never containing an empty
run). -/
def splitOnWsRuns (l : List Char) : List (List Char) :=
  match h : l.dropWhile isJsWS with
  | [] => []
  | c :: rest =>
    (c :: rest.takeWhile (fun d => !isJsWS d)) ::
      splitOnWsRuns (rest.dropWhile (fun d => !isJsWS d))
termination_by l.length
decreasing_by
  simp_wf
  have h1 : (rest.dropWhile (fun d => !isJsWS d)).length ≤ rest.length :=
    (List.dropWhile_sublist _).length_le
  have h2 : (c :: rest).length ≤ l.length := by
    rw [← h]
    exact (List.dropWhile_sublist _).length_le
  simp only [List.length_cons] at h2
  omega

theorem splitOnWsRuns_nil : splitOnWsRuns [] = [] := by
  rw [splitOnWsRuns]
  rfl

theorem splitOnWsRuns_ne_nil (l : List Char) :
    ∀ r ∈ splitOnWsRuns l, r ≠ [] := by
  intro r hr
  rw [splitOnWsRuns] at hr
  split at hr
  · exact absurd hr (List.not_mem_nil r)
  · rcases List.mem_cons.mp hr with h | h
    · rw [h]
      exact List.cons_ne_nil _ _
    · exact splitOnWsRuns_ne_nil _ r h
termination_by l.length
decreasing_by
  simp_wf
  rename_i c rest hdrop _ _
  have h1 : (rest.dropWhile (fun d => !isJsWS d)).length ≤ rest.length :=
    (List.dropWhile_sublist _).length_le
  have h2 : (c :: rest).length ≤ l.length := by
    rw [← hdrop]
    exact (List.dropWhile_sublist _).length_le
  simp only [List.length_cons] at h2
  omega

theorem splitOnWsRuns_dropWhile (l : List Char) :
    splitOnWsRuns (l.dropWhile isJsWS) = splitOnWsRuns l := by
  conv_lhs => rw [splitOnWsRuns]
  conv_rhs => rw [splitOnWsRuns]
  rw [List.dropWhile_idempotent]

theorem jsSplitWsRuns_inSep (l : List Char) :
    jsSplitWsRuns true [] l = jsSplitWsRuns false [] (l.dropWhile isJsWS) := by
  induction l with
  | nil => rfl
  | cons c rest ih =>
    by_cases hc : isJsWS c
    · rw [jsSplitWsRuns, if_pos hc, if_pos rfl, List.dropWhile_cons_of_pos
        (by simp [hc]), ih]
    · rw [jsSplitWsRuns, if_neg hc, List.dropWhile_cons_of_neg (by simp [hc]),
        jsSplitWsRuns, if_neg hc]

theorem head_dropWhile_not (p : Char → Bool) (l : List Char) (c : Char)
    (rest : List Char) (h : l.dropWhile p = c :: rest) : p c = false := by
  induction l with
  | nil => cases h
  | cons d tail ih =>
    by_cases hd : p d
    · rw [List.dropWhile_cons_of_pos hd] at h
      exact ih h
    · rw [List.dropWhile_cons_of_neg hd] at h
      cases h
      exact Bool.not_eq_true _ ▸ hd

theorem getLast?_dropWhile (p : Char → Bool) (l : List Char)
    (h : l.dropWhile p ≠ []) : (l.dropWhile p).getLast? = l.getLast? := by
  induction l with
  | nil => rfl
  | cons c rest ih =>
    by_cases hc : p c
    · rw [List.dropWhile_cons_of_pos hc] at h ⊢
      rw [ih h]
      have hrest : rest ≠ [] := by
        intro h0
        rw [h0] at h
        exact h rfl
      cases rest with
      | nil => exact absurd rfl hrest
      | cons d tail => rw [List.getLast?_cons_cons]
    · rw [List.dropWhile_cons_of_neg hc]

theorem getLast?_cons_of_ne_nil (c : Char) (rest : List Char)
    (h : rest ≠ []) : (c :: rest).getLast? = rest.getLast? := by
  cases rest with
  | nil => exact absurd rfl h
  | cons d t => rw [List.getLast?_cons_cons]

theorem splitOnWsRuns_eq_cons (l : List Char) (d : Char) (tail : List Char)
    (h : l.dropWhile isJsWS = d :: tail) :
    splitOnWsRuns l =
      (d :: tail.takeWhile (fun x => !isJsWS x)) ::
        splitOnWsRuns (tail.dropWhile (fun x => !isJsWS x)) := by
  rw [splitOnWsRuns]
  split
  · rename_i heq
    rw [h] at heq
    cases heq
  · rename_i c' rest' heq
    rw [h] at heq
    cases heq
    rfl

/-- The central bridge: on a list whose last character (if any) is not
whitespace, the implementation's scan from the not-inside-separator state
emits the pending field extended by the leading non-whitespace run and
continues as the split into maximal runs. -/
theorem jsSplitWsRuns_bridge :
    ∀ (n : Nat) (l : List Char) (acc : List Char), l.length ≤ n →
    (∀ c, l.getLast? = some c → isJsWS c = false) →
    jsSplitWsRuns false acc l =
      (acc.reverse ++ l.takeWhile (fun c => !isJsWS c)) ::
        splitOnWsRuns (l.dropWhile (fun c => !isJsWS c)) := by
  intro n
  induction n with
  | zero =>
    intro l acc hlen _
    have : l = [] := List.eq_nil_of_length_eq_zero (Nat.le_zero.mp hlen)
    subst this
    simp [jsSplitWsRuns, splitOnWsRuns_nil]
  | succ n ih =>
    intro l acc hlen hlast
    cases l with
    | nil => simp [jsSplitWsRuns, splitOnWsRuns_nil]
    | cons c rest =>
      by_cases hc : isJsWS c
      · -- separator run at the front: the current field is emitted
        rw [jsSplitWsRuns, if_pos hc, if_neg (by simp), jsSplitWsRuns_inSep]
        have hrestne : rest ≠ [] := by
          intro h0
          rw [h0] at hlast
          exact absurd (hlast c rfl) (by simp [hc])
        have hlastr : ∀ x, rest.getLast? = some x → isJsWS x = false := by
          intro x hx
          apply hlast
          rw [getLast?_cons_of_ne_nil c rest hrestne]
          exact hx
        have hrest : rest.dropWhile isJsWS ≠ [] := by
          intro h0
          have hall : ∀ x ∈ rest, isJsWS x := List.dropWhile_eq_nil_iff.mp h0
          have hmem : rest.getLast? = some (rest.getLast hrestne) :=
            List.getLast?_eq_getLast _ _
          have hws := hlastr _ hmem
          have hmem2 : rest.getLast hrestne ∈ rest := List.getLast_mem _
          rw [hall _ hmem2] at hws
          cases hws
        rcases hd : rest.dropWhile isJsWS with _ | ⟨d, tail⟩
        · exact absurd hd hrest
        · have hdws : isJsWS d = false := head_dropWhile_not _ _ _ _ hd
          have hlen1 : (d :: tail).length ≤ n := by
            have h1 : (d :: tail).length ≤ rest.length := by
              rw [← hd]
              exact (List.dropWhile_sublist _).length_le
            simp only [List.length_cons] at hlen h1 ⊢
            omega
          have hlast1 : ∀ x, (d :: tail).getLast? = some x →
              isJsWS x = false := by
            intro x hx
            apply hlastr
            rw [← getLast?_dropWhile isJsWS rest (by rw [hd]; simp), hd]
            exact hx
          rw [ih (d :: tail) [] hlen1 hlast1]
          have heqt : List.takeWhile (fun x => !isJsWS x) (c :: rest) =
              ([] : List Char) := by
            rw [List.takeWhile_cons_of_neg (by simp [hc])]
          have heqd : List.dropWhile (fun x => !isJsWS x) (c :: rest) =
              c :: rest := by
            rw [List.dropWhile_cons_of_neg (by simp [hc])]
          rw [heqt, heqd]
          have hdropc : (c :: rest).dropWhile isJsWS = d :: tail := by
            rw [List.dropWhile_cons_of_pos (by simp [hc]), hd]
          rw [splitOnWsRuns_eq_cons (c :: rest) d tail hdropc]
          have heqtd : List.takeWhile (fun x => !isJsWS x) (d :: tail) =
              d :: List.takeWhile (fun x => !isJsWS x) tail := by
            rw [List.takeWhile_cons_of_pos (by simp [hdws])]
          have heqdd : List.dropWhile (fun x => !isJsWS x) (d :: tail) =
              List.dropWhile (fun x => !isJsWS x) tail := by
            rw [List.dropWhile_cons_of_pos (by simp [hdws])]
          rw [heqtd, heqdd]
          simp
      · -- field character: accumulate and continue
        rw [jsSplitWsRuns, if_neg hc]
        have hlast2 : ∀ x, rest.getLast? = some x → isJsWS x = false := by
          intro x hx
          apply hlast
          have hne : rest ≠ [] := by
            intro h0
            rw [h0] at hx
            exact absurd hx (by simp)
          rw [getLast?_cons_of_ne_nil c rest hne]
          exact hx
        rw [ih rest (c :: acc)
          (by simp only [List.length_cons] at hlen ⊢; omega) hlast2]
        have heqt2 : List.takeWhile (fun x => !isJsWS x) (c :: rest) =
            c :: List.takeWhile (fun x => !isJsWS x) rest := by
          rw [List.takeWhile_cons_of_pos (by simp [hc])]
        have heqd2 : List.dropWhile (fun x => !isJsWS x) (c :: rest) =
            List.dropWhile (fun x => !isJsWS x) rest := by
          rw [List.dropWhile_cons_of_pos (by simp [hc])]
        rw [heqt2, heqd2]
        simp

theorem takeWhile_nonws_append (l w : List Char)
    (hw : ∀ c ∈ w, isJsWS c = true) :
    (l ++ w).takeWhile (fun x => !isJsWS x) =
      l.takeWhile (fun x => !isJsWS x) := by
  induction l with
  | nil =>
    simp only [List.nil_append, List.takeWhile_nil]
    cases w with
    | nil => rfl
    | cons c rest =>
      rw [List.takeWhile_cons_of_neg]
      simp [hw c (List.mem_cons_self c rest)]
  | cons c l' ih =>
    by_cases hc : isJsWS c
    · rw [List.cons_append, List.takeWhile_cons_of_neg (by simp [hc]),
        List.takeWhile_cons_of_neg (by simp [hc])]
    · rw [List.cons_append, List.takeWhile_cons_of_pos (by simp [hc]),
        List.takeWhile_cons_of_pos (by simp [hc]), ih]

theorem dropWhile_nonws_append (l w : List Char)
    (hw : ∀ c ∈ w, isJsWS c = true) :
    (l ++ w).dropWhile (fun x => !isJsWS x) =
      l.dropWhile (fun x => !isJsWS x) ++ w := by
  induction l with
  | nil =>
    simp only [List.nil_append, List.dropWhile_nil]
    cases w with
    | nil => rfl
    | cons c rest =>
      rw [List.dropWhile_cons_of_neg]
      simp [hw c (List.mem_cons_self c rest)]
  | cons c l' ih =>
    by_cases hc : isJsWS c
    · rw [List.cons_append, List.dropWhile_cons_of_neg (by simp [hc]),
        List.dropWhile_cons_of_neg (by simp [hc]), List.cons_append]
    · rw [List.cons_append, List.dropWhile_cons_of_pos (by simp [hc]),
        List.dropWhile_cons_of_pos (by simp [hc]), ih]

theorem dropWhile_ws_append (l w : List Char) :
    (l ++ w).dropWhile isJsWS =
      if l.dropWhile isJsWS = [] then w.dropWhile isJsWS
      else l.dropWhile isJsWS ++ w := by
  induction l with
  | nil => simp
  | cons c l' ih =>
    by_cases hc : isJsWS c
    · rw [List.cons_append, List.dropWhile_cons_of_pos (by simp [hc]),
        List.dropWhile_cons_of_pos (by simp [hc]), ih]
    · rw [List.cons_append, List.dropWhile_cons_of_neg (by simp [hc]),
        List.dropWhile_cons_of_neg (by simp [hc]),
        if_neg (List.cons_ne_nil c l'), List.cons_append]

theorem splitOnWsRuns_append_ws :
    ∀ (n : Nat) (l w : List Char), l.length ≤ n →
    (∀ c ∈ w, isJsWS c = true) →
    splitOnWsRuns (l ++ w) = splitOnWsRuns l := by
  intro n
  induction n with
  | zero =>
    intro l w hlen hw
    have : l = [] := List.eq_nil_of_length_eq_zero (Nat.le_zero.mp hlen)
    subst this
    rw [List.nil_append, splitOnWsRuns_nil]
    conv_lhs => rw [splitOnWsRuns]
    rw [List.dropWhile_eq_nil_iff.mpr hw]
  | succ n ih =>
    intro l w hlen hw
    rcases hd : l.dropWhile isJsWS with _ | ⟨d, tail⟩
    · have h1 : (l ++ w).dropWhile isJsWS = [] := by
        rw [dropWhile_ws_append, if_pos hd, List.dropWhile_eq_nil_iff.mpr hw]
      conv_lhs => rw [splitOnWsRuns]
      conv_rhs => rw [splitOnWsRuns]
      rw [h1, hd]
    · have hne : l.dropWhile isJsWS ≠ [] := by
        rw [hd]
        exact List.cons_ne_nil d tail
      have h1 : (l ++ w).dropWhile isJsWS = d :: (tail ++ w) := by
        rw [dropWhile_ws_append, if_neg hne, hd, List.cons_append]
      rw [splitOnWsRuns_eq_cons (l ++ w) d (tail ++ w) h1,
        splitOnWsRuns_eq_cons l d tail hd,
        takeWhile_nonws_append tail w hw, dropWhile_nonws_append tail w hw]
      have hrec :
          splitOnWsRuns (tail.dropWhile (fun x => !isJsWS x) ++ w) =
            splitOnWsRuns (tail.dropWhile (fun x => !isJsWS x)) := by
        apply ih _ w _ hw
        have h2 : (tail.dropWhile (fun x => !isJsWS x)).length ≤
            tail.length := (List.dropWhile_sublist _).length_le
        have h3 : (d :: tail).length ≤ l.length := by
          rw [← hd]
          exact (List.dropWhile_sublist _).length_le
        simp only [List.length_cons] at h3
        omega
      rw [hrec]

theorem jsTrim_decomp (l : List Char) :
    l.dropWhile isJsWS =
      jsTrim l ++ ((l.dropWhile isJsWS).reverse.takeWhile isJsWS).reverse := by
  have h :
      l.dropWhile isJsWS =
        ((l.dropWhile isJsWS).reverse.takeWhile isJsWS ++
          (l.dropWhile isJsWS).reverse.dropWhile isJsWS).reverse := by
    rw [List.takeWhile_append_dropWhile, List.reverse_reverse]
  conv_lhs => rw [h]
  rw [List.reverse_append]
  rfl

theorem jsTrim_trailing_ws (l : List Char) :
    ∀ c ∈ ((l.dropWhile isJsWS).reverse.takeWhile isJsWS).reverse,
      isJsWS c = true := by
  intro c hc
  rw [List.mem_reverse] at hc
  exact List.mem_takeWhile_imp hc

theorem jsTrim_last_not_ws (l : List Char) :
    ∀ x, (jsTrim l).getLast? = some x → isJsWS x = false := by
  intro x hx
  have hx' :
      ((l.dropWhile isJsWS).reverse.dropWhile isJsWS).head? = some x := by
    rw [← List.getLast?_reverse]
    exact hx
  cases hB : (l.dropWhile isJsWS).reverse.dropWhile isJsWS with
  | nil => rw [hB] at hx'; cases hx'
  | cons b bs =>
    rw [hB] at hx'
    have hxb : x = b := by
      simp only [List.head?_cons, Option.some.injEq] at hx'
      exact hx'.symm
    rw [hxb]
    exact head_dropWhile_not isJsWS _ b bs hB

theorem mem_jsTrim_of_not_ws (l : List Char) (c : Char) (hc : c ∈ l)
    (hnws : isJsWS c = false) : c ∈ jsTrim l := by
  have hd : c ∈ l.dropWhile isJsWS := by
    have hsplit := List.takeWhile_append_dropWhile isJsWS l
    rcases List.mem_append.mp (hsplit ▸ hc) with h | h
    · exact absurd (List.mem_takeWhile_imp h) (by simp [hnws])
    · exact h
  rw [jsTrim_decomp l] at hd
  rcases List.mem_append.mp hd with h | h
  · exact h
  · exact absurd (jsTrim_trailing_ws l c h) (by simp [hnws])

theorem string_toList_eq_nil_iff (s : String) : s.toList = [] ↔ s = "" := by
  cases s with
  | mk data =>
    constructor
    · intro h
      have hd : data = [] := h
      rw [hd]
    · intro h
      have hd : data = [] := congrArg String.data h
      rw [hd]
      rfl

/-- The implementation's split, applied after trimming, agrees with the
claim's split into maximal non-whitespace runs whenever the input has at
least one non-whitespace character. -/
theorem jsSplitWsRuns_eq_splitOnWsRuns (l : List Char) (c : Char)
    (hc : c ∈ l) (hnws : isJsWS c = false) :
    jsSplitWsRuns false [] (jsTrim l) = splitOnWsRuns l := by
  have hct : c ∈ jsTrim l := mem_jsTrim_of_not_ws l c hc hnws
  cases ht : jsTrim l with
  | nil => rw [ht] at hct; exact absurd hct (List.not_mem_nil c)
  | cons t0 t' =>
    have ht0 : isJsWS t0 = false := by
      have hdec := jsTrim_decomp l
      rw [ht] at hdec
      exact head_dropWhile_not isJsWS l t0 _ (by rw [hdec]; rfl)
    have hbridge := jsSplitWsRuns_bridge (jsTrim l).length (jsTrim l) []
      (Nat.le_refl _) (jsTrim_last_not_ws l)
    rw [ht] at hbridge
    rw [hbridge]
    have heqt : List.takeWhile (fun x => !isJsWS x) (t0 :: t') =
        t0 :: List.takeWhile (fun x => !isJsWS x) t' := by
      rw [List.takeWhile_cons_of_pos (by simp [ht0])]
    have heqd : List.dropWhile (fun x => !isJsWS x) (t0 :: t') =
        List.dropWhile (fun x => !isJsWS x) t' := by
      rw [List.dropWhile_cons_of_pos (by simp [ht0])]
    rw [heqt, heqd]
    simp only [List.reverse_nil, List.nil_append]
    have hsplit_t : splitOnWsRuns (t0 :: t') =
        (t0 :: t'.takeWhile (fun x => !isJsWS x)) ::
          splitOnWsRuns (t'.dropWhile (fun x => !isJsWS x)) :=
      splitOnWsRuns_eq_cons (t0 :: t') t0 t'
        (by rw [List.dropWhile_cons_of_neg (by simp [ht0])])
    rw [← hsplit_t, ← ht]
    have happ := splitOnWsRuns_append_ws
      ((l.dropWhile isJsWS).length) (jsTrim l)
      ((l.dropWhile isJsWS).reverse.takeWhile isJsWS).reverse
      (by
        have := jsTrim_decomp l
        have hlen : (jsTrim l).length ≤ (l.dropWhile isJsWS).length := by
          rw [this, List.length_append]
          omega
        exact hlen)
      (jsTrim_trailing_ws l)
    rw [← jsTrim_decomp l] at happ
    rw [← happ, splitOnWsRuns_dropWhile]

/-- C3 counterexample.  A whitespace-only, non-empty `part` attribute
refutes "never returns empty tokens": `" ".trim()` is the empty string,
and the ECMAScript split of the empty string yields one empty field, so
`parsePartAttribute(" ")` is `[""]`. -/
theorem c3_whitespace_only_token :
    parsePartAttribute (some " ") = [""] ∧
    "" ∈ parsePartAttribute (some " ") := by decide

/-- C3 amended.  `parsePartAttribute(null)` and `parsePartAttribute("")`
are `[]`; for every string with at least one non-whitespace character the
result is exactly the split into maximal non-whitespace runs and contains
no empty token; but a whitespace-only non-empty string yields the single
empty token `[""]`. -/
theorem c3_split_no_empty_tokens :
    parsePartAttribute none = [] ∧
    parsePartAttribute (some "") = [] ∧
    (∀ s : String, (∃ c ∈ s.toList, isJsWS c = false) →
      parsePartAttribute (some s) =
        (splitOnWsRuns s.toList).map (fun cs => String.mk cs) ∧
      "" ∉ parsePartAttribute (some s)) ∧
    (∀ s : String, s.toList ≠ [] → (∀ c ∈ s.toList, isJsWS c = true) →
      parsePartAttribute (some s) = [""]) := by
  refine ⟨rfl, rfl, ?_, ?_⟩
  · intro s hex
    obtain ⟨c, hcmem, hcnws⟩ := hex
    have hs : ¬ s = "" := by
      intro h0
      rw [← string_toList_eq_nil_iff] at h0
      rw [h0] at hcmem
      exact absurd hcmem (List.not_mem_nil c)
    have hparse :
        parsePartAttribute (some s) =
          (jsSplitWsRuns false [] (jsTrim s.toList)).map
            (fun cs => String.mk cs) := by
      simp only [parsePartAttribute, if_neg hs]
    rw [hparse, jsSplitWsRuns_eq_splitOnWsRuns s.toList c hcmem hcnws]
    refine ⟨rfl, ?_⟩
    intro hmem
    rw [List.mem_map] at hmem
    obtain ⟨r, hr, hrs⟩ := hmem
    have hrnil : r = [] := congrArg String.data hrs
    exact absurd hrnil (splitOnWsRuns_ne_nil s.toList r hr)
  · intro s hne hall
    have hs : ¬ s = "" := by
      intro h0
      rw [← string_toList_eq_nil_iff] at h0
      exact hne h0
    have hparse :
        parsePartAttribute (some s) =
          (jsSplitWsRuns false [] (jsTrim s.toList)).map
            (fun cs => String.mk cs) := by
      simp only [parsePartAttribute, if_neg hs]
    have htrim : jsTrim s.toList = [] := by
      rw [jsTrim, List.dropWhile_eq_nil_iff.mpr hall]
      rfl
    rw [hparse, htrim]
    rfl

/-- Witness for C3 at a concrete input: `"foo bar"` has a non-whitespace
character; the split is into the maximal runs `foo` and `bar` with no
empty token. -/
theorem c3_split_no_empty_tokens_witness :
    parsePartAttribute (some "foo bar") =
      (splitOnWsRuns "foo bar".toList).map (fun cs => String.mk cs) ∧
    "" ∉ parsePartAttribute (some "foo bar") :=
  c3_split_no_empty_tokens.2.2.1 "foo bar" (by decide)

/-! ## Claim C6: `onPartAttributeChanged` -/

/-- Folding `addPartSpecifier` over a list of specifiers. -/
def addSpecifiers (e : Elem) (specs : List String) : Elem :=
  specs.foldl addPartSpecifier e

/-- The specifiers `addPartSpecifiersToElement` attaches for a part-name
list: for each name the own-scope specifier followed by every forwarded
specifier. -/
def partSpecifiersFor (scope superScope : String) (epm : ExportPartsMap)
    (names : List String) : List String :=
  names.flatMap
    (fun pn =>
      formatPartSpecifier pn scope superScope ::
        ((epmLookup epm pn).getD []).map
          (fun en => formatPartSpecifier en.partName en.scope en.hostScope))

/-- Space-separated join. -/
def joinSpaced : List String → String
  | [] => ""
  | [s] => s
  | s :: rest => s ++ " " ++ joinSpaced rest

/-- What repeated `addPartSpecifier` produces: the previous attribute
value, if any, followed by the new specifiers, all space-separated. -/
def joinWithOld (old : Option String) (specs : List String) : String :=
  match old with
  | none => joinSpaced specs
  | some o => o ++ " " ++ joinSpaced specs

theorem getAttr_addSpecifiers_shady (specs : List String) :
    ∀ e : Elem, specs ≠ [] →
    getAttr (addSpecifiers e specs) "shady-part" =
      some (joinWithOld (getAttr e "shady-part") specs) := by
  induction specs with
  | nil => intro e h; exact absurd rfl h
  | cons s rest ih =>
    intro e _
    cases rest with
    | nil =>
      rw [addSpecifiers, List.foldl_cons, List.foldl_nil,
        getAttr_addPartSpecifier_self]
      cases getAttr e "shady-part" <;> rfl
    | cons s' rest' =>
      rw [addSpecifiers, List.foldl_cons, ← addSpecifiers,
        ih _ (List.cons_ne_nil s' rest'), getAttr_addPartSpecifier_self]
      cases getAttr e "shady-part" with
      | none => rfl
      | some o =>
        simp only [joinWithOld, joinSpaced]
        simp [String.append_assoc]

theorem addSpecifiersForName_eq_addSpecifiers (scope superScope : String)
    (epm : ExportPartsMap) (e : Elem) (pn : String) :
    addSpecifiersForName scope superScope epm e pn =
      addSpecifiers e
        (formatPartSpecifier pn scope superScope ::
          ((epmLookup epm pn).getD []).map
            (fun en => formatPartSpecifier en.partName en.scope en.hostScope)) := by
  unfold addSpecifiersForName addSpecifiers
  cases hepm : epmLookup epm pn with
  | none => rfl
  | some es =>
    simp only [Option.getD_some, List.foldl_cons, List.foldl_map]

theorem addSpecifiers_append (e : Elem) (xs ys : List String) :
    addSpecifiers (addSpecifiers e xs) ys = addSpecifiers e (xs ++ ys) := by
  rw [addSpecifiers, addSpecifiers, addSpecifiers, List.foldl_append]

theorem partSpecifiersFor_cons (scope superScope : String)
    (epm : ExportPartsMap) (pn : String) (rest : List String) :
    partSpecifiersFor scope superScope epm (pn :: rest) =
      (formatPartSpecifier pn scope superScope ::
        ((epmLookup epm pn).getD []).map
          (fun en =>
            formatPartSpecifier en.partName en.scope en.hostScope)) ++
        partSpecifiersFor scope superScope epm rest := by
  simp only [partSpecifiersFor]
  rw [List.flatMap_cons]

theorem foldl_addSpecifiersForName (scope superScope : String)
    (epm : ExportPartsMap) :
    ∀ (names : List String) (e : Elem),
    names.foldl (addSpecifiersForName scope superScope epm) e =
      addSpecifiers e (partSpecifiersFor scope superScope epm names) := by
  intro names
  induction names with
  | nil => intro e; rfl
  | cons pn rest ih =>
    intro e
    rw [List.foldl_cons, ih, addSpecifiersForName_eq_addSpecifiers,
      partSpecifiersFor_cons]
    exact addSpecifiers_append e _ _

/-- C6 counterexample.  `onPartAttributeChanged` with a non-empty new
value does not clear the element's existing specifiers: it appends the new
ones after them, so the resulting `shady-part` attribute still contains
the stale specifier and does not reflect only the new list. -/
theorem c6_no_clearing_on_update :
    onPartAttributeChanged
        { tag := "div",
          attrs := [("part", "old"), ("shady-part", "stale_spec")] }
        (some "foo") (ElemRoot.inShadow "x-h" none Context.document) =
      some
        { tag := "div",
          attrs :=
            [("part", "old"),
             ("shady-part", "stale_spec document_x-h_foo")] } ∧
    some "stale_spec document_x-h_foo" ≠ some "document_x-h_foo" := by
  decide

/-- C6 amended.  An empty or absent new value removes every specifier from
the element; a non-empty new value appends the specifiers for the new
part-name list (own-scope plus forwarded, via the export-parts map) to the
element's existing `shady-part` attribute without clearing it first — a
local, element-scoped update whose result reflects only the new list
exactly when the attribute was previously absent. -/
theorem c6_attribute_changed_behavior :
    (∀ (e : Elem) (root : ElemRoot) (v : Option String),
      v = none ∨ v = some "" →
      onPartAttributeChanged e v root = some (removeAllPartSpecifiers e) ∧
      getAttr (removeAllPartSpecifiers e) "shady-part" = none) ∧
    (∀ (e : Elem) (v : String) (hostTag : String) (hostAttr : Option String)
      (outer : Context), v ≠ "" → outer ≠ Context.detached →
      onPartAttributeChanged e (some v)
          (ElemRoot.inShadow hostTag hostAttr outer) =
        some
          (addSpecifiers e
            (partSpecifiersFor hostTag ((scopeForRoot outer).getD "")
              (exportPartsMapCore hostAttr outer)
              (parsePartAttribute (some v))))) ∧
    (∀ (e : Elem) (specs : List String), specs ≠ [] →
      getAttr (addSpecifiers e specs) "shady-part" =
        some (joinWithOld (getAttr e "shady-part") specs)) ∧
    (∀ (e : Elem) (specs : List String),
      getAttr e "shady-part" = none → specs ≠ [] →
      getAttr (addSpecifiers e specs) "shady-part" =
        some (joinSpaced specs)) := by
  refine ⟨?_, ?_, ?_, ?_⟩
  · intro e root v hv
    constructor
    · rw [onPartAttributeChanged, if_pos hv]
    · exact getAttr_removeAttr_self e "shady-part"
  · intro e v hostTag hostAttr outer hv houter
    rw [onPartAttributeChanged,
      if_neg (by simp [hv])]
    cases outer with
    | detached => exact absurd rfl houter
    | document =>
      simp only [addPartSpecifiersToElement]
      rw [foldl_addSpecifiersForName]
    | inShadow t a o =>
      simp only [addPartSpecifiersToElement]
      rw [foldl_addSpecifiersForName]
  · intro e specs h
    exact getAttr_addSpecifiers_shady specs e h
  · intro e specs h0 h
    rw [getAttr_addSpecifiers_shady specs e h, h0]
    rfl

/-- Witness for C6 at concrete inputs: clearing on a falsy value and
appending on a non-empty value, starting from an element with no
specifiers. -/
theorem c6_attribute_changed_behavior_witness :
    (onPartAttributeChanged exDivA1 none ElemRoot.document =
      some (removeAllPartSpecifiers exDivA1) ∧
    getAttr (removeAllPartSpecifiers exDivA1) "shady-part" = none) ∧
    onPartAttributeChanged exDivA1 (some "foo")
        (ElemRoot.inShadow "x-h" none Context.document) =
      some
        (addSpecifiers exDivA1
          (partSpecifiersFor "x-h" ((scopeForRoot Context.document).getD "")
            (exportPartsMapCore none Context.document)
            (parsePartAttribute (some "foo")))) ∧
    getAttr (addSpecifiers exDivA1 ["document_x-h_foo"]) "shady-part" =
      some (joinSpaced ["document_x-h_foo"]) :=
  ⟨c6_attribute_changed_behavior.1 exDivA1 ElemRoot.document none
      (Or.inl rfl),
    c6_attribute_changed_behavior.2.1 exDivA1 "foo" "x-h" none
      Context.document (by decide) (by decide),
    c6_attribute_changed_behavior.2.2.2 exDivA1 ["document_x-h_foo"]
      (by decide) (by decide)⟩

/-! ## Claim C8: `getPartId` -/

/-- Value of a little-endian decimal digit list. -/
def ofDigitsRev : List Nat → Nat
  | [] => 0
  | d :: ds => d + 10 * ofDigitsRev ds

theorem ofDigitsRev_natDigitsRevGo :
    ∀ (fuel n : Nat), n < fuel →
    ofDigitsRev (natDigitsRevGo n fuel) = n := by
  intro fuel
  induction fuel with
  | zero => intro n h; omega
  | succ f ih =>
    intro n h
    rw [natDigitsRevGo]
    by_cases h10 : n < 10
    · rw [if_pos h10]
      simp [ofDigitsRev]
    · rw [if_neg h10]
      have hdiv : n / 10 < f := by
        have h1 : n / 10 < n := Nat.div_lt_self (by omega) (by omega)
        omega
      simp only [ofDigitsRev]
      rw [ih (n / 10) hdiv]
      omega

theorem natDigitsRevGo_lt_ten :
    ∀ (fuel n : Nat), ∀ d ∈ natDigitsRevGo n fuel, d < 10 := by
  intro fuel
  induction fuel with
  | zero => intro n d hd; exact absurd hd (List.not_mem_nil d)
  | succ f ih =>
    intro n d hd
    rw [natDigitsRevGo] at hd
    by_cases h10 : n < 10
    · rw [if_pos h10] at hd
      rw [List.mem_singleton] at hd
      omega
    · rw [if_neg h10] at hd
      rcases List.mem_cons.mp hd with h | h
      · rw [h]; exact Nat.mod_lt n (by omega)
      · exact ih (n / 10) d h

theorem digitChar_inj :
    ∀ a < 10, ∀ b < 10, digitChar a = digitChar b → a = b := by decide

theorem map_digitChar_inj :
    ∀ (as bs : List Nat), (∀ a ∈ as, a < 10) → (∀ b ∈ bs, b < 10) →
    as.map digitChar = bs.map digitChar → as = bs := by
  intro as
  induction as with
  | nil =>
    intro bs _ _ h
    cases bs with
    | nil => rfl
    | cons b bs' => cases h
  | cons a as' ih =>
    intro bs ha hb h
    cases bs with
    | nil => cases h
    | cons b bs' =>
      simp only [List.map_cons, List.cons.injEq] at h
      have h1 : a = b :=
        digitChar_inj a (ha a (List.mem_cons_self a as')) b
          (hb b (List.mem_cons_self b bs')) h.1
      have h2 : as' = bs' :=
        ih bs' (fun x hx => ha x (List.mem_cons_of_mem a hx))
          (fun x hx => hb x (List.mem_cons_of_mem b hx)) h.2
      rw [h1, h2]

theorem natRepr_inj (m n : Nat) (h : natRepr m = natRepr n) : m = n := by
  have h1 := congrArg String.data h
  simp only [natRepr] at h1
  have h2 := congrArg List.reverse h1
  simp only [List.reverse_reverse] at h2
  have h3 := map_digitChar_inj (natDigitsRev m) (natDigitsRev n)
    (natDigitsRevGo_lt_ten (m + 1) m) (natDigitsRevGo_lt_ten (n + 1) n) h2
  have h4 := congrArg ofDigitsRev h3
  rw [natDigitsRev, natDigitsRev,
    ofDigitsRev_natDigitsRevGo (m + 1) m (Nat.lt_succ_self m),
    ofDigitsRev_natDigitsRevGo (n + 1) n (Nat.lt_succ_self n)] at h4
  exact h4

theorem partCacheFetch_store_self (cache : List (String × String × String))
    (k fp id : String) (h : partCacheFetch cache k fp = none) :
    partCacheFetch (partCacheStore cache k fp id) k fp = some id := by
  induction cache with
  | nil => simp [partCacheFetch, partCacheStore, List.find?]
  | cons e rest ih =>
    rw [partCacheFetch] at h ⊢
    rw [partCacheStore, List.cons_append]
    by_cases he : e.1 = k ∧ e.2.1 = fp
    · rw [List.find?_cons_of_pos _ (by simp [he.1, he.2])] at h
      cases h
    · rw [List.find?_cons_of_neg _ (by simp; intro h1; simp [h1] at he ⊢; exact he)] at h ⊢
      exact ih h

/-- Well-formed cache state: every stored id was minted by an earlier
value of the monotonic counter. -/
def cacheWF (st : PartIdState) : Prop :=
  ∀ e ∈ st.cache, ∃ k, k < st.partNumber ∧ e.2.2 = natRepr k

/-- C8.  Two successive `getPartId` calls with the same key and the same
custom-property fingerprint return the same id (a miss stores the freshly
minted id against the fingerprint before returning it, so the second call
hits); and, in a well-formed state, a call whose fingerprint misses the
cache returns a new id — the stringified monotonic counter — distinct from
every id stored so far (hence from every previously returned one). -/
theorem c8_part_id_cache :
    (∀ (st : PartIdState) (pn ps cs fp : String),
      (getPartId (getPartId st pn ps cs fp).2 pn ps cs fp).1 =
        (getPartId st pn ps cs fp).1) ∧
    (∀ (st : PartIdState) (pn ps cs fp : String), cacheWF st →
      partCacheFetch st.cache (pn ++ ":" ++ ps ++ ":" ++ cs) fp = none →
      ∀ e ∈ st.cache, (getPartId st pn ps cs fp).1 ≠ e.2.2) := by
  constructor
  · intro st pn ps cs fp
    simp only [getPartId]
    cases hfetch :
        partCacheFetch st.cache (pn ++ ":" ++ ps ++ ":" ++ cs) fp with
    | some id => simp [hfetch]
    | none =>
      simp only [hfetch]
      rw [partCacheFetch_store_self st.cache _ fp
        (natRepr st.partNumber) hfetch]
  · intro st pn ps cs fp hwf hfetch e he
    simp only [getPartId, hfetch]
    obtain ⟨k, hk, hek⟩ := hwf e he
    rw [hek]
    intro hcontra
    have := natRepr_inj st.partNumber k hcontra
    omega

/-- Witness for C8: from a state holding one entry minted by counter value
0, a fetch with a fresh key misses and the returned id differs from the
stored one. -/
theorem c8_part_id_cache_witness :
    (getPartId
        (getPartId { cache := [], partNumber := 0 } "p" "a" "b" "f").2
        "p" "a" "b" "f").1 =
      (getPartId { cache := [], partNumber := 0 } "p" "a" "b" "f").1 ∧
    (getPartId { cache := [("k", "f", "0")], partNumber := 1 }
        "p" "a" "b" "f").1 ≠ "0" := by
  constructor
  · exact c8_part_id_cache.1 { cache := [], partNumber := 0 } "p" "a" "b" "f"
  · have h :=
      c8_part_id_cache.2 { cache := [("k", "f", "0")], partNumber := 1 }
        "p" "a" "b" "f"
        (by
          intro e he
          rw [List.mem_singleton] at he
          rw [he]
          exact ⟨0, Nat.zero_lt_one, by decide⟩)
        (by decide) ("k", "f", "0") (List.mem_singleton.mpr rfl)
    exact h

/-! ## Claim C7: idempotence of `scopeAllHostParts`

The second of two successive runs differs from the first only in the
scope-identity cache it starts from: the first run has stored every id it
minted, so every fetch of the second run hits, returning the same id and
leaving the state untouched.  `Extends st st'` captures "`st'` answers
every fetch `st` answers, identically". -/

/-- Cache-state extension: every fetch answered by `st` is answered
identically by `st'`. -/
def Extends (st st' : PartIdState) : Prop :=
  ∀ k f i, partCacheFetch st.cache k f = some i →
    partCacheFetch st'.cache k f = some i

theorem Extends.refl (st : PartIdState) : Extends st st := fun _ _ _ h => h

theorem Extends.trans {s1 s2 s3 : PartIdState} (h12 : Extends s1 s2)
    (h23 : Extends s2 s3) : Extends s1 s3 :=
  fun k f i h => h23 k f i (h12 k f i h)

theorem partCacheFetch_cons (e : String × String × String)
    (rest : List (String × String × String)) (k f : String) :
    partCacheFetch (e :: rest) k f =
      if e.1 = k ∧ e.2.1 = f then some e.2.2 else partCacheFetch rest k f := by
  by_cases h : e.1 = k ∧ e.2.1 = f
  · rw [if_pos h, partCacheFetch,
      List.find?_cons_of_pos _ (by simp [h.1, h.2])]
    rfl
  · rw [if_neg h, partCacheFetch, List.find?_cons_of_neg _ (by
      simp only [Bool.and_eq_true, decide_eq_true_eq, not_and]
      intro h1 h2
      exact h ⟨h1, h2⟩)]
    rfl

theorem partCacheFetch_store_mono (cache : List (String × String × String))
    (k' f' id' k f i : String) (h : partCacheFetch cache k f = some i) :
    partCacheFetch (partCacheStore cache k' f' id') k f = some i := by
  induction cache with
  | nil => simp [partCacheFetch] at h
  | cons e rest ih =>
    rw [partCacheFetch_cons] at h
    rw [partCacheStore, List.cons_append, ← partCacheStore,
      partCacheFetch_cons]
    by_cases he : e.1 = k ∧ e.2.1 = f
    · rw [if_pos he] at h ⊢
      exact h
    · rw [if_neg he] at h ⊢
      exact ih h

theorem getPartId_mono (st : PartIdState) (pn ps cs fp : String) :
    Extends st (getPartId st pn ps cs fp).2 := by
  intro k f i h
  simp only [getPartId]
  cases hfetch :
      partCacheFetch st.cache (pn ++ ":" ++ ps ++ ":" ++ cs) fp with
  | some id => exact h
  | none => exact partCacheFetch_store_mono st.cache _ _ _ k f i h

theorem scopeOnePartName_state (reg : PartRuleRegistry)
    (fingerprint scope hostScope : String) (epm : ExportPartsMap)
    (pn : String) (e : Elem) (st : PartIdState) :
    (scopeOnePartName reg fingerprint scope hostScope epm pn e st).2 =
      if (customPropertyRulesForPart reg hostScope scope pn).length > 0
      then (getPartId st pn hostScope scope fingerprint).2
      else st := by
  unfold scopeOnePartName
  by_cases hr :
      (customPropertyRulesForPart reg hostScope scope pn).length > 0
  · simp only [hr, if_true]
  · simp only [hr, if_false]

theorem scopeOnePartName_mono (reg : PartRuleRegistry)
    (fingerprint scope hostScope : String) (epm : ExportPartsMap)
    (pn : String) (e : Elem) (st : PartIdState) :
    Extends st
      (scopeOnePartName reg fingerprint scope hostScope epm pn e st).2 := by
  rw [scopeOnePartName_state]
  by_cases hr :
      (customPropertyRulesForPart reg hostScope scope pn).length > 0
  · rw [if_pos hr]
    exact getPartId_mono st pn hostScope scope fingerprint
  · rw [if_neg hr]
    exact Extends.refl st

theorem getPartId_fix (st stBig : PartIdState) (pn ps cs fp : String)
    (h1 : Extends st stBig)
    (h2 : Extends (getPartId st pn ps cs fp).2 stBig) :
    getPartId stBig pn ps cs fp = ((getPartId st pn ps cs fp).1, stBig) := by
  cases hfetch :
      partCacheFetch st.cache (pn ++ ":" ++ ps ++ ":" ++ cs) fp with
  | some i =>
    have hb : partCacheFetch stBig.cache (pn ++ ":" ++ ps ++ ":" ++ cs) fp =
        some i := h1 _ _ _ hfetch
    simp only [getPartId, hfetch, hb]
  | none =>
    have hb : partCacheFetch stBig.cache (pn ++ ":" ++ ps ++ ":" ++ cs) fp =
        some (natRepr st.partNumber) := by
      apply h2
      simp only [getPartId, hfetch]
      exact partCacheFetch_store_self st.cache _ _ _ hfetch
    simp only [getPartId, hfetch, hb]

theorem scopeOnePartName_fix (reg : PartRuleRegistry)
    (fingerprint scope hostScope : String) (epm : ExportPartsMap)
    (pn : String) (e : Elem) (st stBig : PartIdState)
    (h1 : Extends st stBig)
    (h2 : Extends
      (scopeOnePartName reg fingerprint scope hostScope epm pn e st).2
      stBig) :
    scopeOnePartName reg fingerprint scope hostScope epm pn e stBig =
      ((scopeOnePartName reg fingerprint scope hostScope epm pn e st).1,
        stBig) := by
  rw [scopeOnePartName_state] at h2
  by_cases hr :
      (customPropertyRulesForPart reg hostScope scope pn).length > 0
  · rw [if_pos hr] at h2
    have hfix := getPartId_fix st stBig pn hostScope scope fingerprint h1 h2
    unfold scopeOnePartName
    simp only [hr, if_true, hfix]
  · rw [if_neg hr] at h2
    unfold scopeOnePartName
    simp only [hr, if_false]

theorem scopePartNamesLoop_mono (reg : PartRuleRegistry)
    (fingerprint scope hostScope : String) (epm : ExportPartsMap) :
    ∀ (names : List String) (e : Elem) (st : PartIdState),
    Extends st
      (scopePartNamesLoop reg fingerprint scope hostScope epm names e
        st).2 := by
  intro names
  induction names with
  | nil => intro e st; exact Extends.refl st
  | cons pn rest ih =>
    intro e st
    rw [scopePartNamesLoop]
    rcases hN : scopeOnePartName reg fingerprint scope hostScope epm pn e st
      with ⟨e1, st1⟩
    have hm : Extends st st1 := by
      have := scopeOnePartName_mono reg fingerprint scope hostScope epm pn
        e st
      rwa [hN] at this
    exact Extends.trans hm (ih e1 st1)

theorem scopePartNamesLoop_fix (reg : PartRuleRegistry)
    (fingerprint scope hostScope : String) (epm : ExportPartsMap) :
    ∀ (names : List String) (e : Elem) (st stBig : PartIdState),
    Extends st stBig →
    Extends
      (scopePartNamesLoop reg fingerprint scope hostScope epm names e st).2
      stBig →
    scopePartNamesLoop reg fingerprint scope hostScope epm names e stBig =
      ((scopePartNamesLoop reg fingerprint scope hostScope epm names e
        st).1, stBig) := by
  intro names
  induction names with
  | nil => intro e st stBig _ _; rfl
  | cons pn rest ih =>
    intro e st stBig hb1 hb2
    rw [scopePartNamesLoop] at hb2 ⊢
    rcases hN : scopeOnePartName reg fingerprint scope hostScope epm pn e st
      with ⟨e1, st1⟩
    rw [hN] at hb2
    have hst1 : Extends st1 stBig := by
      have hm := scopePartNamesLoop_mono reg fingerprint scope hostScope epm
        rest e1 st1
      exact Extends.trans hm hb2
    have hone : Extends
        (scopeOnePartName reg fingerprint scope hostScope epm pn e st).2
        stBig := by
      rw [hN]
      exact hst1
    have hfix := scopeOnePartName_fix reg fingerprint scope hostScope epm pn
      e st stBig hb1 hone
    rw [hN] at hfix
    rw [hfix]
    conv_rhs => rw [scopePartNamesLoop, hN]
    exact ih e1 st1 stBig hst1 hb2

theorem removeAttr_setAttr_self (e : Elem) (n v : String) :
    removeAttr (setAttr e n v) n = removeAttr e n := by
  simp only [removeAttr, setAttr]
  congr 1
  induction e.attrs with
  | nil => simp [setAttrList]
  | cons p rest ih =>
    by_cases hp : p.1 = n
    · rw [setAttrList, if_pos hp, List.filter_cons, if_neg (by simp [hp]),
        List.filter_cons, if_neg (by simp [hp])]
    · rw [setAttrList, if_neg hp, List.filter_cons, if_pos (by simp [hp]),
        List.filter_cons, if_pos (by simp [hp]), ih]

theorem removeAll_addPartSpecifier (e : Elem) (s : String) :
    removeAllPartSpecifiers (addPartSpecifier e s) =
      removeAllPartSpecifiers e := by
  unfold addPartSpecifier removeAllPartSpecifiers
  cases getAttr e "shady-part" <;> rw [removeAttr_setAttr_self]

theorem removeAll_foldlAdd {α : Type} (g : α → String) (l : List α)
    (e : Elem) :
    removeAllPartSpecifiers
        (l.foldl (fun acc x => addPartSpecifier acc (g x)) e) =
      removeAllPartSpecifiers e := by
  induction l generalizing e with
  | nil => rfl
  | cons x rest ih =>
    rw [List.foldl_cons, ih, removeAll_addPartSpecifier]

theorem removeAll_scopeOnePartName (reg : PartRuleRegistry)
    (fingerprint scope hostScope : String) (epm : ExportPartsMap)
    (pn : String) (e : Elem) (st : PartIdState) :
    removeAllPartSpecifiers
        ((scopeOnePartName reg fingerprint scope hostScope epm pn e st).1) =
      removeAllPartSpecifiers e := by
  unfold scopeOnePartName
  by_cases hr :
      (customPropertyRulesForPart reg hostScope scope pn).length > 0 <;>
    cases hepm : epmLookup epm pn <;>
      simp [hr, hepm, removeAll_foldlAdd, removeAll_addPartSpecifier]

theorem removeAll_scopePartNamesLoop (reg : PartRuleRegistry)
    (fingerprint scope hostScope : String) (epm : ExportPartsMap) :
    ∀ (names : List String) (e : Elem) (st : PartIdState),
    removeAllPartSpecifiers
        ((scopePartNamesLoop reg fingerprint scope hostScope epm names e
          st).1) = removeAllPartSpecifiers e := by
  intro names
  induction names with
  | nil => intro e st; rfl
  | cons pn rest ih =>
    intro e st
    rw [scopePartNamesLoop]
    rcases hN : scopeOnePartName reg fingerprint scope hostScope epm pn e st
      with ⟨e1, st1⟩
    have h1 : removeAllPartSpecifiers e1 = removeAllPartSpecifiers e := by
      have := removeAll_scopeOnePartName reg fingerprint scope hostScope epm
        pn e st
      rwa [hN] at this
    rw [ih e1 st1, h1]

theorem removeAll_idem (e : Elem) :
    removeAllPartSpecifiers (removeAllPartSpecifiers e) =
      removeAllPartSpecifiers e := by
  simp only [removeAllPartSpecifiers, removeAttr]
  congr 1
  rw [List.filter_filter]
  congr 1
  funext a
  rw [Bool.and_self]

theorem scopePartNode_mono (reg : PartRuleRegistry)
    (fingerprint scope hostScope : String) (epm : ExportPartsMap) (e : Elem)
    (st : PartIdState) :
    Extends st
      (scopePartNode reg fingerprint scope hostScope epm e st).2 := by
  unfold scopePartNode
  exact scopePartNamesLoop_mono reg fingerprint scope hostScope epm _ _ st

theorem scopePartNode_part_attr (reg : PartRuleRegistry)
    (fingerprint scope hostScope : String) (epm : ExportPartsMap) (e : Elem)
    (st : PartIdState) :
    getAttr ((scopePartNode reg fingerprint scope hostScope epm e st).1)
        "part" = getAttr e "part" :=
  getAttr_scopePartNode_ne reg fingerprint scope hostScope epm e st "part"
    (by decide)

theorem scopePartNode_fix (reg : PartRuleRegistry)
    (fingerprint scope hostScope : String) (epm : ExportPartsMap) (e : Elem)
    (st stBig : PartIdState) (h1 : Extends st stBig)
    (h2 : Extends (scopePartNode reg fingerprint scope hostScope epm e st).2
      stBig) :
    scopePartNode reg fingerprint scope hostScope epm
        ((scopePartNode reg fingerprint scope hostScope epm e st).1) stBig =
      ((scopePartNode reg fingerprint scope hostScope epm e st).1,
        stBig) := by
  have hre :
      removeAllPartSpecifiers
          ((scopePartNode reg fingerprint scope hostScope epm e st).1) =
        removeAllPartSpecifiers e := by
    unfold scopePartNode
    rw [removeAll_scopePartNamesLoop, removeAll_idem]
  conv_lhs => rw [scopePartNode, hre]
  rw [scopePartNode] at h2
  conv_rhs => rw [scopePartNode]
  exact scopePartNamesLoop_fix reg fingerprint scope hostScope epm _ _ st
    stBig h1 h2

theorem scopeNodesLoop_mono (reg : PartRuleRegistry)
    (fingerprint scope hostScope : String) (epm : ExportPartsMap) :
    ∀ (nodes : List Elem) (st : PartIdState),
    Extends st
      (scopeNodesLoop reg fingerprint scope hostScope epm nodes st).2 := by
  intro nodes
  induction nodes with
  | nil => intro st; exact Extends.refl st
  | cons e rest ih =>
    intro st
    rw [scopeNodesLoop]
    by_cases hp : (getAttr e "part").isSome
    · simp only [hp, if_true]
      rcases hN : scopePartNode reg fingerprint scope hostScope epm e st
        with ⟨e1, st1⟩
      rcases hR : scopeNodesLoop reg fingerprint scope hostScope epm rest st1
        with ⟨rest1, st2⟩
      have hm1 : Extends st st1 := by
        have := scopePartNode_mono reg fingerprint scope hostScope epm e st
        rwa [hN] at this
      have hm2 : Extends st1 st2 := by
        have := ih st1
        rwa [hR] at this
      exact Extends.trans hm1 hm2
    · simp only [hp, if_false]
      rcases hR : scopeNodesLoop reg fingerprint scope hostScope epm rest st
        with ⟨rest1, st1⟩
      have := ih st
      rwa [hR] at this

theorem scopeNodesLoop_fix (reg : PartRuleRegistry)
    (fingerprint scope hostScope : String) (epm : ExportPartsMap) :
    ∀ (nodes : List Elem) (st stBig : PartIdState) (nodes1 : List Elem)
      (st1 : PartIdState),
    scopeNodesLoop reg fingerprint scope hostScope epm nodes st =
      (nodes1, st1) →
    Extends st stBig → Extends st1 stBig →
    scopeNodesLoop reg fingerprint scope hostScope epm nodes1 stBig =
      (nodes1, stBig) := by
  intro nodes
  induction nodes with
  | nil =>
    intro st stBig nodes1 st1 hEq _ _
    rw [scopeNodesLoop] at hEq
    cases hEq
    rfl
  | cons e rest ih =>
    intro st stBig nodes1 st1 hEq hb1 hb2
    rw [scopeNodesLoop] at hEq
    by_cases hp : (getAttr e "part").isSome
    · rw [if_pos hp] at hEq
      rcases hN : scopePartNode reg fingerprint scope hostScope epm e st
        with ⟨e1, s1⟩
      rw [hN] at hEq
      dsimp only at hEq
      rcases hR : scopeNodesLoop reg fingerprint scope hostScope epm rest s1
        with ⟨r1, s2⟩
      rw [hR] at hEq
      dsimp only at hEq
      cases hEq
      -- nodes1 = e1 :: r1, st1 = s2
      have hms1 : Extends st s1 := by
        have := scopePartNode_mono reg fingerprint scope hostScope epm e st
        rwa [hN] at this
      have hms2 : Extends s1 st1 := by
        have := scopeNodesLoop_mono reg fingerprint scope hostScope epm
          rest s1
        rwa [hR] at this
      have hs1Big : Extends s1 stBig := Extends.trans hms2 hb2
      have he1p : (getAttr e1 "part").isSome := by
        have := scopePartNode_part_attr reg fingerprint scope hostScope epm
          e st
        rw [hN] at this
        rw [this]
        exact hp
      have hfixN := scopePartNode_fix reg fingerprint scope hostScope epm e
        st stBig hb1 (by rw [hN]; exact hs1Big)
      rw [hN] at hfixN
      dsimp only at hfixN
      have hfixR := ih s1 stBig r1 st1 hR hs1Big hb2
      rw [scopeNodesLoop, if_pos he1p, hfixN]
      dsimp only
      rw [hfixR]
    · rw [if_neg hp] at hEq
      rcases hR : scopeNodesLoop reg fingerprint scope hostScope epm rest st
        with ⟨r1, s1⟩
      dsimp only at hEq
      rw [hR] at hEq
      dsimp only at hEq
      cases hEq
      have hfixR := ih st stBig r1 st1 hR hb1 hb2
      rw [scopeNodesLoop, if_neg hp, hfixR]

/-- Rescoping never changes which elements carry a `part` attribute, so
the `partNodes.length === 0` guard of a second pass selects the same
elements. -/
theorem countP_part_of_frame :
    ∀ {l l' : List Elem}, List.Forall₂ AgreesOffShadyPart l l' →
    l'.countP (fun e => (getAttr e "part").isSome) =
      l.countP (fun e => (getAttr e "part").isSome) := by
  intro l l' h
  induction h with
  | nil => rfl
  | cons hab _ ih =>
    simp only [List.countP_cons, ih, hab "part" (by decide)]

/-- C7.  For every host, calling `scopeAllHostParts` twice in succession
with no intervening tree mutation is idempotent: the second call, applied
to the shadow-tree contents and cache state produced by the first, returns
exactly the first call's output, so every descendant carries an identical
`shady-part` attribute value after the second call as after the first. -/
theorem c7_scope_idempotent (reg : PartRuleRegistry) (fingerprint : String)
    (host : Elem) (ctx : Context) (shadow : Option (List Elem))
    (st : PartIdState) :
    scopeAllHostParts reg fingerprint host ctx
        (scopeAllHostParts reg fingerprint host ctx shadow st).1
        (scopeAllHostParts reg fingerprint host ctx shadow st).2 =
      scopeAllHostParts reg fingerprint host ctx shadow st := by
  cases shadow with
  | none => rfl
  | some nodes =>
    by_cases h0 : nodes.countP (fun e => (getAttr e "part").isSome) = 0
    · have h1 : scopeAllHostParts reg fingerprint host ctx (some nodes) st
          = (some nodes, st) := by
        unfold scopeAllHostParts
        dsimp only
        rw [if_pos h0]
      rw [h1]
      dsimp only
      unfold scopeAllHostParts
      dsimp only
      rw [if_pos h0]
    · cases hs : scopeForRoot ctx with
      | none =>
        have h1 : scopeAllHostParts reg fingerprint host ctx (some nodes) st
            = (some nodes, st) := by
          unfold scopeAllHostParts
          dsimp only
          rw [if_neg h0, hs]
        rw [h1]
        dsimp only
        unfold scopeAllHostParts
        dsimp only
        rw [if_neg h0, hs]
      | some hostScope =>
        rcases hX : scopeNodesLoop reg fingerprint host.tag hostScope
            (exportPartsMapCore (getAttr host "exportparts") ctx) nodes st
          with ⟨nodes1, st1⟩
        have h1 : scopeAllHostParts reg fingerprint host ctx (some nodes) st
            = (some nodes1, st1) := by
          unfold scopeAllHostParts
          dsimp only
          rw [if_neg h0, hs]
          dsimp only
          rw [hX]
        have hcount : nodes1.countP (fun e => (getAttr e "part").isSome) =
            nodes.countP (fun e => (getAttr e "part").isSome) := by
          have hf := scopeNodesLoop_frame reg fingerprint host.tag hostScope
            (exportPartsMapCore (getAttr host "exportparts") ctx) nodes st
          rw [hX] at hf
          exact countP_part_of_frame hf
        have hmono : Extends st st1 := by
          have := scopeNodesLoop_mono reg fingerprint host.tag hostScope
            (exportPartsMapCore (getAttr host "exportparts") ctx) nodes st
          rwa [hX] at this
        have hfix := scopeNodesLoop_fix reg fingerprint host.tag hostScope
          (exportPartsMapCore (getAttr host "exportparts") ctx) nodes st st1
          nodes1 st1 hX hmono (Extends.refl st1)
        have h0' : ¬ nodes1.countP (fun e => (getAttr e "part").isSome) = 0 :=
          by rw [hcount]; exact h0
        rw [h1]
        dsimp only
        unfold scopeAllHostParts
        dsimp only
        rw [if_neg h0', hs]
        dsimp only
        rw [hfix]
